import Mathlib

/-!
Verification development for the join-resolution and pipeline-compiler core
of the natural-language-to-MongoDB-query repository.

The definitions below are a shallow embedding of
`src/services/query_compiler.py` (class `QueryCompiler`).  Python dicts that
are used as ordered key/value documents are embedded as association lists
with insert-or-overwrite semantics; Python sets, which the source consults
only through membership tests, are embedded as lists consulted only through
membership; Python `KeyError` failures are embedded as `Except.error`; the
truthiness tests the source performs on optional strings are made explicit
via `truthyOpt`, and Python string interpolation of `None` is made explicit
via `pyStr`.  The Neo4j query results consumed by `fetch_join_recipes` are
modelled as explicit input data (`GraphData`), in the order the driver
returns them.
-/

/-- Scalar values that can occur in an Intent filter (`src/models/intent.py`:
`value` is a scalar or a list of scalars). -/
inductive Prim where
  | str (s : String)
  | int (n : Int)
  | bool (b : Bool)
deriving DecidableEq, Repr

/-- A filter value: a scalar or a list of scalars. -/
inductive Value where
  | prim (p : Prim)
  | list (ps : List Prim)
deriving DecidableEq, Repr

/-- The `Op` literal type of `src/models/intent.py` (the spellings the Intent
model accepts). -/
def OpLiterals : List String :=
  ["eq", "ne", "gt", "gte", "lt", "lte", "between", "in", "contains",
   "starts_with", "ends_with"]

/-- Python truthiness of an optional string: `None` and `""` are falsy. -/
def truthyOpt : Option String → Bool
  | none => false
  | some s => s != ""

/-- Python string interpolation of an optional string (`f"{x}"`): `None`
prints as `"None"`. -/
def pyStr : Option String → String
  | none => "None"
  | some s => s

/-- Python `a or b` on two optional strings. -/
def pyOr (a b : Option String) : Option String :=
  if truthyOpt a then a else b

/-- Character-level helper for `str.split(".")`: accumulate the current
segment, cutting at every dot. -/
def splitDotChars : List Char → List Char → List String
  | [], acc => [String.mk acc]
  | c :: cs, acc =>
    if c = '.' then String.mk acc :: splitDotChars cs []
    else splitDotChars cs (acc ++ [c])

/-- Python `path.split(".")`. -/
def pySplitDot (path : String) : List String :=
  splitDotChars path.data []

/-- Python `".".join(parts)`. -/
def joinDot : List String → String
  | [] => ""
  | [s] => s
  | s :: rest => s ++ "." ++ joinDot rest

/-- Character-level comparison behind `str.startswith`. -/
def leadsChars : List Char → List Char → Bool
  | [], _ => true
  | _ :: _, [] => false
  | p :: ps, c :: cs => p == c && leadsChars ps cs

/-- Python `s.startswith(pre)`. -/
def pyStartsWith (s pre : String) : Bool :=
  leadsChars pre.data s.data

/-- The characters of `s` from character index `n` on (Python `s[n:]`). -/
def pyDrop (s : String) (n : Nat) : String :=
  String.mk (s.data.drop n)

/-- The character length of a string (Python `len(s)`). -/
def pyLen (s : String) : Nat :=
  s.data.length

/-- One join operation derived from the schema graph
(dataclass `JoinRecipe` in `query_compiler.py`). -/
structure JoinRecipe where
  kind : String
  src_collection : String
  «alias» : String
  dst_collection : Option String
  local_field : Option String
  foreign_field : Option String
  target_path : Option String := none
  lookup_local_field : Option String := none
  array_path : Option String := none
deriving DecidableEq, Repr

/-- A filter entry of an Intent, as the raw dict the compiler receives:
each key may be missing (`f["pathHint"]` / `f["value"]` raise `KeyError`
when missing; `f.get("op", "eq")` defaults). -/
structure FilterD where
  pathHint : Option String := none
  op : Option String := none
  value : Option Value := none
deriving DecidableEq, Repr

/-- A sort entry of an Intent. -/
structure SortD where
  pathHint : Option String := none
  dir : Option String := none
deriving DecidableEq, Repr

/-- An entry of the `select` section as `extract_potential_paths` sees it:
either a plain string or a dict holding `pathHint` / `field` keys. -/
inductive PathItem where
  | str (s : String)
  | obj (pathHint : Option String) (fieldVal : Option String)
deriving DecidableEq, Repr

/-- The Intent dict handed to `compile_pipeline`.  `root` may be missing
(`intent["root"]` raises `KeyError`); the list sections default to `[]`
(`intent.get(section, [])`). -/
structure IntentD where
  root : Option String := none
  select : List PathItem := []
  filters : List FilterD := []
  sort : List SortD := []
  limit : Option Int := none
  aggregation : Option String := none
deriving DecidableEq, Repr

/-- A compiled condition for one field of a `$match` document:
either a bare value (equality) or an operator document. -/
inductive Cond where
  | plain (v : Value)
  | ne (v : Value)
  | gt (v : Value)
  | gte (v : Value)
  | lt (v : Value)
  | lte (v : Value)
  | inOp (v : Value)
deriving DecidableEq, Repr

/-- An abstract aggregation-pipeline stage, as emitted by
`compile_pipeline`.  Unwind stages always carry
`preserveNullAndEmptyArrays: True` in the source, so only the path is
recorded; the recorded path includes the `"$"` prefix the source
interpolates. -/
inductive Stage where
  | matchS (doc : List (String × Cond))
  | lookup (from_ : Option String) (localField : Option String)
      (foreignField : Option String) (as_ : Option String)
  | unwind (path : String)
  | count (field : String)
deriving DecidableEq, Repr

/-- Insert-or-overwrite on an ordered dict (`d[k] = v` in Python): an
existing key keeps its position and gets the new value, a new key is
appended. -/
def dictInsert {α : Type} : List (String × α) → String → α → List (String × α)
  | [], k, v => [(k, v)]
  | (k', v') :: rest, k, v =>
    if k' = k then (k', v) :: rest else (k', v') :: dictInsert rest k v

/-- Ordered-dict lookup (first entry with the key; entries are unique). -/
def dictLookup {α : Type} : List (String × α) → String → Option α
  | [], _ => none
  | (k', v) :: rest, k => if k' = k then some v else dictLookup rest k

/- ------------------------------------------------------------------
   Path extraction (`QueryCompiler.extract_potential_paths`)
   ------------------------------------------------------------------ -/

/-- The raw path value of one section entry:
`item.get("pathHint") or item.get("field")` for dicts, the item itself for
strings. -/
def itemRaw : PathItem → Option String
  | .str s => some s
  | .obj ph fv => pyOr ph fv

/-- The effective path of one entry after the source's `if not path:
continue` truthiness skip: `none` for missing or empty values. -/
def itemPath (it : PathItem) : Option String :=
  match itemRaw it with
  | none => none
  | some s => if s = "" then none else some s

/-- All dotted ancestors of a path: `".".join(parts[:i])` for each
`i = 1 .. len(parts)` where `parts = path.split(".")`. -/
def dotAncestors (path : String) : List String :=
  let parts := pySplitDot path
  (List.range parts.length).map (fun i => joinDot (parts.take (i + 1)))

/-- The three sections `extract_potential_paths` iterates, in order, each
entry viewed through the dict/string branch of the source. -/
def pathItemsOf (intent : IntentD) : List PathItem :=
  intent.select
    ++ intent.filters.map (fun f => PathItem.obj f.pathHint none)
    ++ intent.sort.map (fun s => PathItem.obj s.pathHint none)

/-- `used.add(x)`: sets are embedded as lists without duplicates, consulted
only through membership. -/
def addUnique (u : List String) (x : String) : List String :=
  if x ∈ u then u else u ++ [x]

/-- `QueryCompiler.extract_potential_paths`: every dotted ancestor of every
path referenced in `select`, `filters` and `sort`. -/
def extract_potential_paths (intent : IntentD) : List String :=
  (pathItemsOf intent).foldl
    (fun used it =>
      match itemPath it with
      | none => used
      | some p => (dotAncestors p).foldl addUnique used)
    []

/- ------------------------------------------------------------------
   Join-recipe fetching (`QueryCompiler.fetch_join_recipes`)
   ------------------------------------------------------------------ -/

/-- One row of the collection-join query (step 1 of
`fetch_join_recipes`): the relationship metadata of one `REFERS_TO` edge
reachable from the root.  Row order is the order the driver returns. -/
structure CollectionRecord where
  src : String
  dst : String
  «alias» : String
  localField : String
  foreignField : String
deriving DecidableEq, Repr

/-- One row of the embedded-join query (step 2): one embedded array of a
collection together with its outgoing `REFERS_TO` edge. -/
structure EmbeddedRecord where
  array_path : String
  «alias» : String
  dst_collection : String
  local_field : String
  foreign_field : String
deriving DecidableEq, Repr

/-- The schema-graph query results `fetch_join_recipes` consumes, in driver
order: the collection-edge rows, per-collection embedded-join rows, and the
root-level embedded arrays without an outgoing reference. -/
structure GraphData where
  collectionEdges : List CollectionRecord
  embeddedOf : String → List EmbeddedRecord
  rootEmbedded : List String

/-- The preliminary collection `JoinRecipe` built from one edge row. -/
def mkCollectionRecipe (rec : CollectionRecord) : JoinRecipe :=
  { kind := "collection"
    src_collection := rec.src
    «alias» := rec.«alias»
    dst_collection := some rec.dst
    local_field := some rec.localField
    foreign_field := some rec.foreignField }

/-- One step of `resolve_paths` on the recipe at index `i`, with explicit
fuel standing in for Python's recursion (exhausted fuel models the
`RecursionError` an unresolvable parent cycle produces).  Mirrors the
source: an already（truthily）resolved recipe is left alone; a root-sourced
recipe resolves to its «alias»; otherwise the first recipe whose
`dst_collection` equals this recipe's `src_collection` is resolved first
and prefixes the paths; with no parent the recipe falls back to root-level
resolution. -/
def resolveStep (root : String) : Nat → List JoinRecipe → Nat → Option (List JoinRecipe)
  | 0, _, _ => none
  | Nat.succ fuel, rs, i =>
    match rs[i]? with
    | none => some rs
    | some jr =>
      if truthyOpt jr.target_path then some rs
      else if jr.src_collection = root then
        some (rs.set i { jr with target_path := some jr.«alias»,
                                 lookup_local_field := jr.local_field })
      else
        match rs.findIdx? (fun r => r.dst_collection == some jr.src_collection) with
        | some j =>
          match resolveStep root fuel rs j with
          | none => none
          | some rs' =>
            match rs'[j]?, rs'[i]? with
            | some parent, some jri =>
              some (rs'.set i { jri with
                target_path := some (pyStr parent.target_path ++ "." ++ jri.«alias»),
                lookup_local_field :=
                  some (pyStr parent.target_path ++ "." ++ pyStr jri.local_field) })
            | _, _ => some rs'
        | none =>
          some (rs.set i { jr with target_path := some jr.«alias»,
                                   lookup_local_field := jr.local_field })

/-- `for jr in recipes: resolve_paths(jr)`, index by index. -/
def resolveAll (root : String) (recipes : List JoinRecipe) : Except String (List JoinRecipe) :=
  (List.range recipes.length).foldlM
    (fun rs i =>
      match resolveStep root (rs.length + 1) rs i with
      | some rs' => Except.ok rs'
      | none => Except.error "RecursionError: resolve_paths")
    recipes

/-- Steps 2 and 3 of `fetch_join_recipes`: append the embedded recipes of
the root and of every collection reached by a collection join, then the
root-level embedded arrays without an outgoing reference. -/
def allRecipes (root : String) (g : GraphData) (resolved : List JoinRecipe) : List JoinRecipe :=
  let collectionsToCheck :=
    root :: (resolved.filter (fun r => r.kind == "collection")).map
      (fun r => pyStr r.dst_collection)
  let withEmb := collectionsToCheck.foldl
    (fun acc col =>
      (g.embeddedOf col).foldl
        (fun acc2 rec =>
          let parent := acc2.find?
            (fun r => r.dst_collection == some col && r.kind == "collection")
          let fullArrayPath :=
            match parent with
            | some p => pyStr p.target_path ++ "." ++ rec.array_path
            | none => rec.array_path
          acc2 ++ [{ kind := "embedded"
                     src_collection := col
                     «alias» := rec.«alias»
                     dst_collection := some rec.dst_collection
                     local_field := some rec.local_field
                     foreign_field := some rec.foreign_field
                     array_path := some fullArrayPath }])
        acc)
    resolved
  withEmb ++ g.rootEmbedded.map (fun ap =>
    { kind := "embedded"
      src_collection := root
      «alias» := ap
      dst_collection := none
      local_field := none
      foreign_field := none
      array_path := some ap })

/-- The discard key of the final loop of `fetch_join_recipes`:
`r.target_path if r.kind == "collection" else (r.array_path or r.«alias»)`. -/
def path_to_check (r : JoinRecipe) : Option String :=
  if r.kind = "collection" then r.target_path
  else if truthyOpt r.array_path then r.array_path else some r.«alias»

/-- The deduplication key of the final loop of `fetch_join_recipes`:
`(r.target_path or r.«alias», r.array_path)`. -/
def dedupKey (r : JoinRecipe) : String × Option String :=
  (if truthyOpt r.target_path then pyStr r.target_path else r.«alias», r.array_path)

/-- The final loop of `fetch_join_recipes`: discard recipes whose (truthy)
effective path is not required, then deduplicate by `dedupKey`, first
occurrence winning. -/
def dedupFilter (req : List String) : List JoinRecipe → List (String × Option String) → List JoinRecipe
  | [], _ => []
  | r :: rest, seen =>
    if truthyOpt (path_to_check r) = true ∧ pyStr (path_to_check r) ∉ req then
      dedupFilter req rest seen
    else
      if dedupKey r ∈ seen then dedupFilter req rest seen
      else r :: dedupFilter req rest (dedupKey r :: seen)

/-- `QueryCompiler.fetch_join_recipes`, with the schema-graph query results
supplied as data. -/
def fetch_join_recipes (root : String) (req : List String) (g : GraphData) :
    Except String (List JoinRecipe) :=
  match resolveAll root (g.collectionEdges.map mkCollectionRecipe) with
  | Except.error e => Except.error e
  | Except.ok resolved => Except.ok (dedupFilter req (allRecipes root g resolved) [])

/- ------------------------------------------------------------------
   Match compilation (`QueryCompiler.compile_match`)
   ------------------------------------------------------------------ -/

/-- The embedded-path rewrite dict of `compile_match`:
`{f"{r.array_path}.{r.«alias»}": r.«alias»}` over embedded recipes with a
truthy `array_path`, in recipe order. -/
def rewrite_map (jrs : List JoinRecipe) : List (String × String) :=
  jrs.foldl
    (fun d r =>
      if r.kind == "embedded" && truthyOpt r.array_path then
        dictInsert d (pyStr r.array_path ++ "." ++ r.«alias») r.«alias»
      else d)
    []

/-- The rewrite loop of `compile_match`: the first rewrite-dict entry whose
logical path is a leading substring of the filter path replaces it once,
then the loop breaks. -/
def applyRewrite (rm : List (String × String)) (path : String) : String :=
  match rm with
  | [] => path
  | (logical, al) :: rest =>
    if pyStartsWith path logical then al ++ pyDrop path (pyLen logical)
    else applyRewrite rest path

/-- The operator dispatch of `compile_match`: the chained conditional
expression, with the final fallback emitting the bare value. -/
def condOf (op : String) (v : Value) : Cond :=
  if op = "eq" then Cond.plain v
  else if op = "neq" then Cond.ne v
  else if op = "gt" then Cond.gt v
  else if op = "gte" then Cond.gte v
  else if op = "lt" then Cond.lt v
  else if op = "lte" then Cond.lte v
  else if op = "in" then Cond.inOp v
  else Cond.plain v

/-- The filter loop of `compile_match`, building the match document. -/
def compile_match_go (rm : List (String × String)) :
    List FilterD → List (String × Cond) → Except String (List (String × Cond))
  | [], doc => Except.ok doc
  | f :: rest, doc =>
    match f.pathHint with
    | none => Except.error "KeyError: pathHint"
    | some p0 =>
      let p := applyRewrite rm p0
      let op := f.op.getD "eq"
      match f.value with
      | none => Except.error "KeyError: value"
      | some v => compile_match_go rm rest (dictInsert doc p (condOf op v))

/-- `QueryCompiler.compile_match`. -/
def compile_match (filters : List FilterD) (join_recipes : List JoinRecipe) :
    Except String (List (String × Cond)) :=
  compile_match_go (rewrite_map join_recipes) filters []

/- ------------------------------------------------------------------
   Pipeline compilation (`QueryCompiler.compile_pipeline`)
   ------------------------------------------------------------------ -/

/-- The `lookup_paths` set of `compile_pipeline` (lines 210-215): the
target paths of collection recipes, plus, for embedded recipes with a
truthy `dst_collection`, `f"{array_path}.{«alias»}"` (when `array_path` is
truthy) and the «alias».  The set is consulted only through membership; a
collection recipe whose `target_path` is `None` is skipped here (in the
source such a value would poison the membership test itself). -/
def lookup_paths (jrs : List JoinRecipe) : List String :=
  (jrs.filter (fun r => r.kind == "collection")).filterMap (fun r => r.target_path)
    ++ (jrs.map (fun r =>
          if r.kind == "embedded" && truthyOpt r.dst_collection then
            (if truthyOpt r.array_path
             then [pyStr r.array_path ++ "." ++ r.«alias»]
             else []) ++ [r.«alias»]
          else [])).flatten

/-- The post-lookup test of the classification loop:
`any(path == lp or path.startswith(lp + ".") for lp in lookup_paths)`. -/
def isPostHint (lps : List String) (path : String) : Bool :=
  lps.any (fun lp => path == lp || pyStartsWith path (lp ++ "."))

/-- The classification loop of `compile_pipeline` (lines 219-224),
splitting filters into pre-lookup and post-lookup in order; a filter
missing `pathHint` raises. -/
def classifyFilters (lps : List String) :
    List FilterD → Except String (List FilterD × List FilterD)
  | [] => Except.ok ([], [])
  | f :: rest =>
    match f.pathHint with
    | none => Except.error "KeyError: pathHint"
    | some p =>
      match classifyFilters lps rest with
      | Except.error e => Except.error e
      | Except.ok (pre, post) =>
        if isPostHint lps p then Except.ok (pre, f :: post)
        else Except.ok (f :: pre, post)

/-- The lookup-plus-unwind pair an embedded recipe emits when it has a
truthy `dst_collection` (lines 255-266 of the source): the lookup's local
field is `f"{array_path}.{local_field}"` when the array path is truthy,
else the bare local field; the joined alias is then unwound unguarded. -/
def embLookupPart (r : JoinRecipe) : List Stage :=
  if truthyOpt r.dst_collection then
    [Stage.lookup r.dst_collection
       (if truthyOpt r.array_path
        then some (pyStr r.array_path ++ "." ++ pyStr r.local_field)
        else r.local_field)
       r.foreign_field (some r.«alias»),
     Stage.unwind ("$" ++ r.«alias»)]
  else []

/-- The join-emission loop of `compile_pipeline` (lines 233-266), threading
the `unwound` set (which holds collection target paths and embedded array
paths, `None` included, as the source's set does).  Returns the emitted
stages and the final `unwound` set. -/
def emitJoins : List JoinRecipe → List (Option String) → List Stage × List (Option String)
  | [], u => ([], u)
  | r :: rest, u =>
    if r.kind = "collection" then
      if r.target_path ∈ u then emitJoins rest u
      else
        let step := emitJoins rest (r.target_path :: u)
        (Stage.lookup r.dst_collection r.lookup_local_field r.foreign_field r.target_path
           :: Stage.unwind ("$" ++ pyStr r.target_path)
           :: step.1,
         step.2)
    else
      let arrayPart :=
        if truthyOpt r.array_path = true ∧ r.array_path ∉ u then
          ([Stage.unwind ("$" ++ pyStr r.array_path)], r.array_path :: u)
        else ([], u)
      let step := emitJoins rest arrayPart.2
      (arrayPart.1 ++ embLookupPart r ++ step.1, step.2)

/-- `sorted(join_recipes, key=lambda r: r.kind != "collection")`: a stable
sort on the boolean key, i.e. collection recipes first in original order,
then the rest in original order. -/
def sortRecipes (jrs : List JoinRecipe) : List JoinRecipe :=
  jrs.filter (fun r => r.kind == "collection")
    ++ jrs.filter (fun r => !(r.kind == "collection"))

/-- One `$match` block: empty when the filter list is, otherwise a single
match stage from `compile_match`. -/
def matchBlock (fs : List FilterD) (jrs : List JoinRecipe) : Except String (List Stage) :=
  if fs.isEmpty then Except.ok []
  else
    match compile_match fs jrs with
    | Except.error e => Except.error e
    | Except.ok m => Except.ok [Stage.matchS m]

/-- The terminal aggregation block: `{"$count": "total"}` exactly when
`intent.get("aggregation") == "count"`. -/
def aggBlock (intent : IntentD) : List Stage :=
  if intent.aggregation == some "count" then [Stage.count "total"] else []

/-- Lines 207-277 of `compile_pipeline`: classification, pre-lookup match,
joins, post-lookup match, aggregation, in source order. -/
def compile_pipeline_stages (intent : IntentD) (jrs : List JoinRecipe) :
    Except String (List Stage) :=
  match classifyFilters (lookup_paths jrs) intent.filters with
  | Except.error e => Except.error e
  | Except.ok (pre, post) =>
    match matchBlock pre jrs with
    | Except.error e => Except.error e
    | Except.ok pb =>
      match matchBlock post jrs with
      | Except.error e => Except.error e
      | Except.ok qb =>
        Except.ok (pb ++ (emitJoins (sortRecipes jrs) []).1 ++ qb ++ aggBlock intent)

/-- `compile_pipeline` with the required-path set passed explicitly
(the set is consulted only through membership tests). -/
def compile_pipeline_core (intent : IntentD) (req : List String) (g : GraphData) :
    Except String (List Stage) :=
  match intent.root with
  | none => Except.error "KeyError: root"
  | some root =>
    match fetch_join_recipes root req g with
    | Except.error e => Except.error e
    | Except.ok jrs => compile_pipeline_stages intent jrs

/-- `QueryCompiler.compile_pipeline`. -/
def compile_pipeline (intent : IntentD) (g : GraphData) : Except String (List Stage) :=
  compile_pipeline_core intent (extract_potential_paths intent) g

/-- Whether an `Except` result is an error (a raised exception in the
source, with no pipeline returned). -/
def isErr {α : Type} : Except String α → Bool
  | Except.error _ => true
  | Except.ok _ => false

/- ------------------------------------------------------------------
   Derived notions used to state the claims
   ------------------------------------------------------------------ -/

/-- The collection-kind recipes of a list, in order (the first block of the
stable sort in `compile_pipeline`). -/
def collectionRecipes (jrs : List JoinRecipe) : List JoinRecipe :=
  jrs.filter (fun r => r.kind == "collection")

/-- The non-collection recipes of a list, in order (the second block of the
stable sort in `compile_pipeline`). -/
def embeddedRecipes (jrs : List JoinRecipe) : List JoinRecipe :=
  jrs.filter (fun r => !(r.kind == "collection"))

/-- The `as` field of a lookup stage (and `none` for any other stage). -/
def lookupAs : Stage → Option (Option String)
  | Stage.lookup _ _ _ a => some a
  | _ => none

/-- First-occurrence deduplication of a list, skipping elements already
seen. -/
def dedupSeen (seen : List (Option String)) : List (Option String) → List (Option String)
  | [] => []
  | x :: rest =>
    if x ∈ seen then dedupSeen seen rest
    else x :: dedupSeen (x :: seen) rest

/-- `a` is a strict dotted ancestor of `b`: the paths differ and `b` starts
with `a` followed by a dot. -/
def dotUnder (a b : String) : Prop :=
  a ≠ b ∧ pyStartsWith b (a ++ ".") = true

/-- `dotUnder` lifted to optional paths (false when either is absent). -/
def dotUnderO : Option String → Option String → Prop
  | some a, some b => dotUnder a b
  | _, _ => False

instance : ∀ a b : String, Decidable (dotUnder a b) := fun _ _ => by
  unfold dotUnder; infer_instance

instance : ∀ a b : Option String, Decidable (dotUnderO a b) := fun a b => by
  cases a <;> cases b <;> unfold dotUnderO <;> infer_instance

/-- Whether a recipe makes the join loop emit a guarded unwind of array
path `ap`: a collection recipe with that target path, or a non-collection
recipe with that array path (both guarded by the `unwound` set in the
source). -/
def unwindTrigger (ap : String) (r : JoinRecipe) : Bool :=
  (r.kind == "collection" && r.target_path == some ap)
    || (!(r.kind == "collection") && r.array_path == some ap)

/-- The condition the last filter targeting rewritten path `p` compiles to,
if any: the specification-side description of the overwrite semantics of
`compile_match` (later filters shadow earlier ones on the same path). -/
def lastFilterCond (rm : List (String × String)) (fs : List FilterD) (p : String) : Option Cond :=
  match fs with
  | [] => none
  | f :: rest =>
    match lastFilterCond rm rest p with
    | some c => some c
    | none =>
      match f.pathHint, f.value with
      | some p0, some v =>
        if applyRewrite rm p0 = p then some (condOf (f.op.getD "eq") v) else none
      | _, _ => none

/- ------------------------------------------------------------------
   Concrete instances (schema-graph query results and Intents used to
   evaluate the compiler on specific inputs)
   ------------------------------------------------------------------ -/

/-- A schema graph with no relationships at all. -/
def gEmpty : GraphData := ⟨[], fun _ => [], []⟩

/-- A graph whose root collection `orders` declares one embedded array
`items` with two outgoing references; the second reference's relationship
alias collides with the array's own name. -/
def c1Graph : GraphData :=
  ⟨[], fun c =>
    if c = "orders" then
      [⟨"items", "product", "products", "productId", "_id"⟩,
       ⟨"items", "items", "products", "productId", "_id"⟩]
    else [], []⟩

/-- An Intent selecting a field behind the embedded `items` array. -/
def c1Intent : IntentD :=
  { root := some "orders", select := [PathItem.str "items.product.name"] }

/-- A two-hop reference chain `payments → orders → customers` whose edge
rows arrive child-edge first. -/
def c2Graph : GraphData :=
  ⟨[⟨"orders", "customers", "customer", "customerId", "_id"⟩,
    ⟨"payments", "orders", "order", "orderId", "_id"⟩], fun _ => [], []⟩

/-- An Intent needing both hops of the `payments` chain. -/
def c2Intent : IntentD :=
  { root := some "payments", select := [PathItem.str "order.customer.name"] }

/-- A graph whose root `orders` declares one embedded array `items` with no
outgoing reference. -/
def c3Graph : GraphData := ⟨[], fun _ => [], ["items"]⟩

/-- An Intent filtering on a field under the embedded `items` array. -/
def c3Intent : IntentD :=
  { root := some "orders"
    filters := [{ pathHint := some "items.qty", op := some "eq",
                  value := some (Value.prim (Prim.int 5)) }] }

/-- A graph with one reference edge whose relationship alias is the empty
string. -/
def c4Graph : GraphData :=
  ⟨[⟨"orders", "x", "", "xId", "_id"⟩], fun _ => [], []⟩

/-- An Intent that references only the local field `name`. -/
def c4Intent : IntentD :=
  { root := some "orders", select := [PathItem.str "name"] }

/-- An Intent whose single filter has no `op` key. -/
def c5Intent : IntentD :=
  { root := some "orders"
    filters := [{ pathHint := some "status", op := none,
                  value := some (Value.prim (Prim.str "PENDING")) }] }

/-- An Intent with one local filter and a count aggregation. -/
def c6Intent : IntentD :=
  { root := some "orders"
    filters := [{ pathHint := some "status", op := some "eq",
                  value := some (Value.prim (Prim.str "PENDING")) }]
    aggregation := some "count" }

/-- Two filters targeting the same field path with different operators. -/
def c8Filters : List FilterD :=
  [{ pathHint := some "total", op := some "gt", value := some (Value.prim (Prim.int 1)) },
   { pathHint := some "total", op := some "lt", value := some (Value.prim (Prim.int 9)) }]

/-- An Intent referencing the two-segment path `a.b`. -/
def c9Intent : IntentD :=
  { root := some "orders", select := [PathItem.str "a.b"] }

/-- A well-behaved pair of embedded recipes sharing one array path, with
distinct aliases. -/
def c1GoodJrs : List JoinRecipe :=
  [⟨"embedded", "orders", "driver", some "drivers", some "driverId", some "_id",
    none, none, some "deliveries"⟩,
   ⟨"embedded", "orders", "vehicle", some "vehicles", some "vehicleId", some "_id",
    none, none, some "deliveries"⟩]

/-- A two-hop collection recipe list in dependency (parent-first) order. -/
def c2GoodJrs : List JoinRecipe :=
  [⟨"collection", "payments", "order", some "orders", some "orderId", some "_id",
    some "order", some "orderId", none⟩,
   ⟨"collection", "orders", "customer", some "customers", some "customerId", some "_id",
    some "order.customer", some "order.customerId", none⟩]

/-- A graph whose root `orders` declares one embedded array `deliveries`
with two outgoing references whose aliases do not collide with the array
name. -/
def c1WitGraph : GraphData :=
  ⟨[], fun c =>
    if c = "orders" then
      [⟨"deliveries", "driver", "drivers", "driverId", "_id"⟩,
       ⟨"deliveries", "vehicle", "vehicles", "vehicleId", "_id"⟩]
    else [], []⟩

/-- An Intent selecting fields behind both embedded joins of `deliveries`. -/
def c1WitIntent : IntentD :=
  { root := some "orders"
    select := [PathItem.str "deliveries.driver.name", PathItem.str "deliveries.vehicle.type"] }

/- ------------------------------------------------------------------
   Helper lemmas
   ------------------------------------------------------------------ -/

theorem string_append_inj (p a b : String) : (p ++ a = p ++ b) ↔ a = b := by
  cases p with | mk lp =>
  cases a with | mk la =>
  cases b with | mk lb =>
  constructor
  · intro h
    have h2 : (lp ++ la) = (lp ++ lb) := congrArg String.data h
    exact congrArg String.mk (List.append_cancel_left h2)
  · intro h
    rw [h]

theorem dictLookup_dictInsert {α : Type} (d : List (String × α)) (k p : String) (v : α) :
    dictLookup (dictInsert d k v) p = if k = p then some v else dictLookup d p := by
  induction d with
  | nil => simp [dictInsert, dictLookup]
  | cons hd tl ih =>
    obtain ⟨k', v'⟩ := hd
    by_cases h : k' = k
    · subst h
      by_cases hp : k' = p <;> simp [dictInsert, dictLookup, hp]
    · by_cases hp : k' = p
      · subst hp
        simp [dictInsert, dictLookup, h, Ne.symm h]
      · simp [dictInsert, dictLookup, h, hp, ih]

theorem mem_keys_dictInsert {α : Type} (d : List (String × α)) (k x : String) (v : α) :
    x ∈ (dictInsert d k v).map Prod.fst ↔ x ∈ d.map Prod.fst ∨ x = k := by
  induction d with
  | nil => simp [dictInsert]
  | cons hd tl ih =>
    obtain ⟨k', v'⟩ := hd
    by_cases h : k' = k
    · subst h
      simp [dictInsert]
      tauto
    · simp [dictInsert, h, ih]
      tauto

theorem nodup_keys_dictInsert {α : Type} (d : List (String × α)) (k : String) (v : α)
    (h : (d.map Prod.fst).Nodup) : ((dictInsert d k v).map Prod.fst).Nodup := by
  induction d with
  | nil => simp [dictInsert]
  | cons hd tl ih =>
    obtain ⟨k', v'⟩ := hd
    simp only [List.map_cons, List.nodup_cons] at h
    by_cases hk : k' = k
    · subst hk
      simpa [dictInsert] using h
    · simp only [dictInsert, hk, if_false, List.map_cons, List.nodup_cons]
      refine ⟨?_, ih h.2⟩
      intro hmem
      rcases (mem_keys_dictInsert tl k k' v).mp hmem with h1 | h1
      · exact h.1 h1
      · exact hk h1

theorem classifyFilters_ok (lps : List String) (fs : List FilterD)
    (pre post : List FilterD)
    (h : classifyFilters lps fs = Except.ok (pre, post)) :
    pre = fs.filter (fun f => !(isPostHint lps (pyStr f.pathHint)))
      ∧ post = fs.filter (fun f => isPostHint lps (pyStr f.pathHint))
      ∧ ∀ f ∈ fs, f.pathHint ≠ none := by
  induction fs generalizing pre post with
  | nil =>
    simp [classifyFilters] at h
    simp [h.1, h.2]
  | cons f rest ih =>
    match hph : f.pathHint with
    | none => simp [classifyFilters, hph] at h
    | some p =>
      simp only [classifyFilters, hph] at h
      match hrec : classifyFilters lps rest with
      | Except.error e => rw [hrec] at h; simp at h
      | Except.ok (pre', post') =>
        rw [hrec] at h
        obtain ⟨h1, h2, h3⟩ := ih pre' post' hrec
        by_cases hpost : isPostHint lps p
        · simp [hpost] at h
          refine ⟨?_, ?_, ?_⟩
          · rw [← h.1, h1]
            simp [List.filter, hph, pyStr, hpost]
          · rw [← h.2, h2]
            simp [List.filter, hph, pyStr, hpost]
          · intro g hg
            rcases List.mem_cons.mp hg with hg | hg
            · rw [hg, hph]; simp
            · exact h3 g hg
        · simp [hpost] at h
          refine ⟨?_, ?_, ?_⟩
          · rw [← h.1, h1]
            simp [List.filter, hph, pyStr, hpost]
          · rw [← h.2, h2]
            simp [List.filter, hph, pyStr, hpost]
          · intro g hg
            rcases List.mem_cons.mp hg with hg | hg
            · rw [hg, hph]; simp
            · exact h3 g hg

theorem classifyFilters_err (lps : List String) (fs : List FilterD)
    (h : ∃ f ∈ fs, f.pathHint = none) :
    isErr (classifyFilters lps fs) = true := by
  induction fs with
  | nil => simp at h
  | cons f rest ih =>
    obtain ⟨g, hg, hgn⟩ := h
    rcases List.mem_cons.mp hg with hg | hg
    · subst hg
      simp [classifyFilters, hgn, isErr]
    · match hph : f.pathHint with
      | none => simp [classifyFilters, hph, isErr]
      | some p =>
        have hrec := ih ⟨g, hg, hgn⟩
        simp only [classifyFilters, hph]
        match hr : classifyFilters lps rest with
        | Except.error e => simp [isErr]
        | Except.ok (pre', post') => rw [hr] at hrec; simp [isErr] at hrec

theorem compile_match_go_err (rm : List (String × String)) (fs : List FilterD)
    (d : List (String × Cond))
    (h : ∃ f ∈ fs, f.pathHint = none ∨ f.value = none) :
    isErr (compile_match_go rm fs d) = true := by
  induction fs generalizing d with
  | nil => simp at h
  | cons f rest ih =>
    obtain ⟨g, hg, hgn⟩ := h
    rcases List.mem_cons.mp hg with hg | hg
    · subst hg
      rcases hgn with hgn | hgn
      · simp [compile_match_go, hgn, isErr]
      · match hph : g.pathHint with
        | none => simp [compile_match_go, hph, isErr]
        | some p => simp [compile_match_go, hph, hgn, isErr]
    · match hph : f.pathHint with
      | none => simp [compile_match_go, hph, isErr]
      | some p =>
        match hv : f.value with
        | none => simp [compile_match_go, hph, hv, isErr]
        | some v =>
          simp only [compile_match_go, hph, hv]
          exact ih _ ⟨g, hg, hgn⟩

theorem compile_match_go_lookup (rm : List (String × String)) (fs : List FilterD)
    (d doc : List (String × Cond)) (p : String)
    (h : compile_match_go rm fs d = Except.ok doc) :
    dictLookup doc p =
      match lastFilterCond rm fs p with
      | some c => some c
      | none => dictLookup d p := by
  induction fs generalizing d with
  | nil =>
    simp [compile_match_go] at h
    subst h
    simp [lastFilterCond]
  | cons f rest ih =>
    match hph : f.pathHint with
    | none => simp [compile_match_go, hph] at h
    | some p0 =>
      match hv : f.value with
      | none => simp [compile_match_go, hph, hv] at h
      | some v =>
        simp only [compile_match_go, hph, hv] at h
        have step := ih _ h
        rw [step]
        simp only [lastFilterCond, hph, hv]
        match lastFilterCond rm rest p with
        | some c => simp
        | none =>
          simp only
          rw [dictLookup_dictInsert]
          by_cases he : applyRewrite rm p0 = p <;> simp [he]

theorem compile_match_go_nodup (rm : List (String × String)) (fs : List FilterD)
    (d doc : List (String × Cond))
    (hd : (d.map Prod.fst).Nodup)
    (h : compile_match_go rm fs d = Except.ok doc) :
    (doc.map Prod.fst).Nodup := by
  induction fs generalizing d with
  | nil =>
    simp [compile_match_go] at h
    subst h
    exact hd
  | cons f rest ih =>
    match hph : f.pathHint with
    | none => simp [compile_match_go, hph] at h
    | some p0 =>
      match hv : f.value with
      | none => simp [compile_match_go, hph, hv] at h
      | some v =>
        simp only [compile_match_go, hph, hv] at h
        exact ih _ (nodup_keys_dictInsert _ _ _ hd) h

theorem matchBlock_shape (fs : List FilterD) (jrs : List JoinRecipe)
    (pb : List Stage) (h : matchBlock fs jrs = Except.ok pb) :
    pb = [] ∨ ∃ m, pb = [Stage.matchS m] ∧ compile_match fs jrs = Except.ok m := by
  by_cases he : fs.isEmpty
  · simp [matchBlock, he] at h
    left
    exact h
  · simp only [matchBlock, he, if_false] at h
    match hm : compile_match fs jrs with
    | Except.error e => rw [hm] at h; simp at h
    | Except.ok m =>
      rw [hm] at h
      simp at h
      right
      exact ⟨m, h.symm, rfl⟩

theorem compile_stages_eq (intent : IntentD) (jrs : List JoinRecipe)
    (stages : List Stage)
    (h : compile_pipeline_stages intent jrs = Except.ok stages) :
    ∃ pre post pb qb,
      classifyFilters (lookup_paths jrs) intent.filters = Except.ok (pre, post)
      ∧ matchBlock pre jrs = Except.ok pb
      ∧ matchBlock post jrs = Except.ok qb
      ∧ stages = pb ++ (emitJoins (sortRecipes jrs) []).1 ++ qb ++ aggBlock intent := by
  match hc : classifyFilters (lookup_paths jrs) intent.filters with
  | Except.error e => simp [compile_pipeline_stages, hc] at h
  | Except.ok (pre, post) =>
    match hp : matchBlock pre jrs with
    | Except.error e => simp [compile_pipeline_stages, hc, hp] at h
    | Except.ok pb =>
      match hq : matchBlock post jrs with
      | Except.error e => simp [compile_pipeline_stages, hc, hp, hq] at h
      | Except.ok qb =>
        simp only [compile_pipeline_stages, hc, hp, hq, Except.ok.injEq] at h
        exact ⟨pre, post, pb, qb, rfl, hp, hq, h.symm⟩

theorem emitJoins_append (A B : List JoinRecipe) (u : List (Option String)) :
    emitJoins (A ++ B) u =
      ((emitJoins A u).1 ++ (emitJoins B (emitJoins A u).2).1,
       (emitJoins B (emitJoins A u).2).2) := by
  induction A generalizing u with
  | nil => simp [emitJoins]
  | cons r rest ih =>
    by_cases hk : r.kind = "collection"
    · by_cases hu : r.target_path ∈ u
      · simp [emitJoins, hk, hu, ih]
      · simp [emitJoins, hk, hu, ih]
    · by_cases ha : truthyOpt r.array_path = true ∧ r.array_path ∉ u
      · simp [emitJoins, hk, ha, ih]
      · simp [emitJoins, hk, ha, ih]

theorem emitJoins_shape (l : List JoinRecipe) (u : List (Option String)) :
    ∀ s ∈ (emitJoins l u).1,
      (∃ f lf ff a, s = Stage.lookup f lf ff a) ∨ (∃ p, s = Stage.unwind p) := by
  induction l generalizing u with
  | nil => simp [emitJoins]
  | cons r rest ih =>
    intro s hs
    by_cases hk : r.kind = "collection"
    · by_cases hu : r.target_path ∈ u
      · rw [emitJoins] at hs
        simp only [hk, if_true, hu] at hs
        exact ih u s hs
      · rw [emitJoins] at hs
        simp only [hk, if_true, hu, if_false] at hs
        rcases List.mem_cons.mp hs with hs | hs
        · left; exact ⟨_, _, _, _, hs⟩
        · rcases List.mem_cons.mp hs with hs | hs
          · right; exact ⟨_, hs⟩
          · exact ih _ s hs
    · rw [emitJoins] at hs
      simp only [hk, if_false] at hs
      by_cases ha : truthyOpt r.array_path = true ∧ r.array_path ∉ u
      · simp only [ha, if_true] at hs
        rcases List.mem_append.mp hs with hs | hs
        · rcases List.mem_append.mp hs with hs | hs
          · simp at hs
            right; exact ⟨_, hs⟩
          · by_cases hdc : truthyOpt r.dst_collection
            · simp [embLookupPart, hdc] at hs
              rcases hs with hs | hs
              · left; exact ⟨_, _, _, _, hs⟩
              · right; exact ⟨_, hs⟩
            · simp [embLookupPart, hdc] at hs
        · exact ih _ s hs
      · simp only [ha, if_false] at hs
        rcases List.mem_append.mp hs with hs | hs
        · rcases List.mem_append.mp hs with hs | hs
          · simp at hs
          · by_cases hdc : truthyOpt r.dst_collection
            · simp [embLookupPart, hdc] at hs
              rcases hs with hs | hs
              · left; exact ⟨_, _, _, _, hs⟩
              · right; exact ⟨_, hs⟩
            · simp [embLookupPart, hdc] at hs
        · exact ih _ s hs

theorem emitJoins_collection_as (l : List JoinRecipe) (u : List (Option String))
    (hl : ∀ r ∈ l, r.kind = "collection") :
    ((emitJoins l u).1).filterMap lookupAs = dedupSeen u (l.map (fun r => r.target_path)) := by
  induction l generalizing u with
  | nil => simp [emitJoins, dedupSeen]
  | cons r rest ih =>
    have hk : r.kind = "collection" := hl r (List.mem_cons_self r rest)
    have hrest : ∀ x ∈ rest, x.kind = "collection" := fun x hx => hl x (List.mem_cons_of_mem r hx)
    by_cases hu : r.target_path ∈ u
    · simp [emitJoins, hk, hu, dedupSeen, ih _ hrest]
    · simp [emitJoins, hk, hu, dedupSeen, lookupAs, ih _ hrest]

theorem dedupSeen_sublist (seen : List (Option String)) (l : List (Option String)) :
    (dedupSeen seen l).Sublist l := by
  induction l generalizing seen with
  | nil => simp [dedupSeen]
  | cons x rest ih =>
    by_cases hx : x ∈ seen
    · simp only [dedupSeen, hx, if_true]
      exact (ih seen).trans (List.sublist_cons_self x rest)
    · simp only [dedupSeen, hx, if_false]
      exact (ih (x :: seen)).cons₂ x

theorem unwind_eq_iff (x y : String) : (Stage.unwind x = Stage.unwind y) ↔ x = y := by
  constructor
  · intro h; injection h
  · intro h; rw [h]


theorem emitJoins_cons_coll_skip (r : JoinRecipe) (rest : List JoinRecipe)
    (u : List (Option String)) (hk : r.kind = "collection") (hu : r.target_path ∈ u) :
    emitJoins (r :: rest) u = emitJoins rest u := by
  rw [emitJoins]
  simp [hk, hu]

theorem emitJoins_cons_coll_emit (r : JoinRecipe) (rest : List JoinRecipe)
    (u : List (Option String)) (hk : r.kind = "collection") (hu : r.target_path ∉ u) :
    emitJoins (r :: rest) u =
      (Stage.lookup r.dst_collection r.lookup_local_field r.foreign_field r.target_path
         :: Stage.unwind ("$" ++ pyStr r.target_path)
         :: (emitJoins rest (r.target_path :: u)).1,
       (emitJoins rest (r.target_path :: u)).2) := by
  rw [emitJoins]
  simp [hk, hu]

theorem emitJoins_cons_emb_unwind (r : JoinRecipe) (rest : List JoinRecipe)
    (u : List (Option String)) (hk : ¬ r.kind = "collection")
    (ha : truthyOpt r.array_path = true ∧ r.array_path ∉ u) :
    emitJoins (r :: rest) u =
      (Stage.unwind ("$" ++ pyStr r.array_path)
         :: (embLookupPart r ++ (emitJoins rest (r.array_path :: u)).1),
       (emitJoins rest (r.array_path :: u)).2) := by
  rw [emitJoins]
  simp [hk, ha]

theorem emitJoins_cons_emb_skip (r : JoinRecipe) (rest : List JoinRecipe)
    (u : List (Option String)) (hk : ¬ r.kind = "collection")
    (ha : ¬ (truthyOpt r.array_path = true ∧ r.array_path ∉ u)) :
    emitJoins (r :: rest) u =
      (embLookupPart r ++ (emitJoins rest u).1, (emitJoins rest u).2) := by
  rw [emitJoins]
  simp [hk, ha]

theorem embLookupPart_count (ap : String) (r : JoinRecipe)
    (hal : truthyOpt r.dst_collection = true → r.«alias» ≠ ap) :
    (embLookupPart r).count (Stage.unwind ("$" ++ ap)) = 0 := by
  by_cases hdc : truthyOpt r.dst_collection = true
  · have h1 : Stage.lookup r.dst_collection
        (if truthyOpt r.array_path
         then some (pyStr r.array_path ++ "." ++ pyStr r.local_field)
         else r.local_field)
        r.foreign_field (some r.«alias») ≠ Stage.unwind ("$" ++ ap) := by
      intro hcon
      exact Stage.noConfusion hcon
    have h2 : Stage.unwind ("$" ++ r.«alias») ≠ Stage.unwind ("$" ++ ap) := by
      intro hcon
      injection hcon with h
      exact hal hdc ((string_append_inj "$" r.«alias» ap).mp h)
    simp [embLookupPart, hdc, List.count_cons, h1, h2]
  · simp [embLookupPart, hdc]

theorem emitJoins_count_unwind (ap : String) (l : List JoinRecipe)
    (hap : ap ≠ "")
    (hW : ∀ r ∈ l, r.kind = "collection" → r.target_path ≠ none)
    (hA : ∀ r ∈ l, r.kind ≠ "collection" → truthyOpt r.dst_collection = true → r.«alias» ≠ ap) :
    ∀ u : List (Option String),
      ((emitJoins l u).1).count (Stage.unwind ("$" ++ ap)) =
        if some ap ∈ u then 0 else if l.any (unwindTrigger ap) then 1 else 0 := by
  induction l with
  | nil =>
    intro u
    simp [emitJoins]
  | cons r rest ih =>
    have hWr := hW r (List.mem_cons_self r rest)
    have hAr := hA r (List.mem_cons_self r rest)
    have IH := ih (fun x hx => hW x (List.mem_cons_of_mem r hx))
                  (fun x hx => hA x (List.mem_cons_of_mem r hx))
    intro u
    have hlk : ∀ f lf ff a, Stage.lookup f lf ff a ≠ Stage.unwind ("$" ++ ap) := by
      intro f lf ff a hcon
      exact Stage.noConfusion hcon
    by_cases hk : r.kind = "collection"
    · match htp : r.target_path with
      | none => exact absurd htp (hWr hk)
      | some tp =>
        by_cases htap : tp = ap
        · have htrig : unwindTrigger ap r = true := by
            simp [unwindTrigger, hk, htp, htap]
          by_cases hu : r.target_path ∈ u
          · have hmem : some ap ∈ u := by rw [← htap, ← htp]; exact hu
            rw [emitJoins_cons_coll_skip r rest u hk hu, IH u]
            simp [hmem]
          · have hmem : some ap ∉ u := by rw [← htap, ← htp]; exact hu
            have hmem2 : some ap ∈ (r.target_path :: u) := by
              rw [htp, htap]
              exact List.mem_cons_self _ _
            have hun : Stage.unwind ("$" ++ pyStr r.target_path) = Stage.unwind ("$" ++ ap) := by
              rw [htp, htap]
              rfl
            rw [emitJoins_cons_coll_emit r rest u hk hu]
            simp [List.count_cons, hlk, hun, IH (r.target_path :: u), hmem2, hmem, htrig]
        · have htrig : unwindTrigger ap r = false := by
            simp [unwindTrigger, hk, htp, htap]
          by_cases hu : r.target_path ∈ u
          · rw [emitJoins_cons_coll_skip r rest u hk hu, IH u]
            simp [List.any_cons, htrig]
          · have hmemiff : (some ap ∈ (r.target_path :: u)) ↔ (some ap ∈ u) := by
              rw [htp]
              simp [Ne.symm htap]
            have hun : Stage.unwind ("$" ++ pyStr r.target_path) ≠ Stage.unwind ("$" ++ ap) := by
              rw [htp]
              intro hcon
              injection hcon with h
              exact htap ((string_append_inj "$" tp ap).mp h)
            rw [emitJoins_cons_coll_emit r rest u hk hu]
            by_cases hm : some ap ∈ u
            · simp [List.count_cons, hlk, hun, IH (r.target_path :: u), hmemiff, hm,
                List.any_cons, htrig]
            · simp [List.count_cons, hlk, hun, IH (r.target_path :: u), hmemiff, hm,
                List.any_cons, htrig]
    · have hlp : (embLookupPart r).count (Stage.unwind ("$" ++ ap)) = 0 :=
        embLookupPart_count ap r (hAr hk)
      by_cases ha : truthyOpt r.array_path = true ∧ r.array_path ∉ u
      · obtain ⟨a, happ⟩ : ∃ a, r.array_path = some a := by
          cases h : r.array_path with
          | none =>
            rw [h] at ha
            simp [truthyOpt] at ha
          | some a => exact ⟨a, rfl⟩
        rw [emitJoins_cons_emb_unwind r rest u hk ha]
        by_cases haap : a = ap
        · have htrig : unwindTrigger ap r = true := by
            simp [unwindTrigger, hk, happ, haap]
          have hmem : some ap ∉ u := by
            rw [← haap, ← happ]
            exact ha.2
          have hmem2 : some ap ∈ (r.array_path :: u) := by
            rw [happ, haap]
            exact List.mem_cons_self _ _
          have hun : Stage.unwind ("$" ++ pyStr r.array_path) = Stage.unwind ("$" ++ ap) := by
            rw [happ, haap]
            rfl
          simp [List.count_cons, List.count_append, hlp, hun, IH (r.array_path :: u),
            hmem2, hmem, htrig]
        · have htrig : unwindTrigger ap r = false := by
            simp [unwindTrigger, hk, happ, haap]
          have hmemiff : (some ap ∈ (r.array_path :: u)) ↔ (some ap ∈ u) := by
            rw [happ]
            simp [Ne.symm haap]
          have hun : Stage.unwind ("$" ++ pyStr r.array_path) ≠ Stage.unwind ("$" ++ ap) := by
            rw [happ]
            intro hcon
            injection hcon with h
            exact haap ((string_append_inj "$" a ap).mp h)
          by_cases hm : some ap ∈ u
          · simp [List.count_cons, List.count_append, hlp, hun, IH (r.array_path :: u),
              hmemiff, hm, List.any_cons, htrig]
          · simp [List.count_cons, List.count_append, hlp, hun, IH (r.array_path :: u),
              hmemiff, hm, List.any_cons, htrig]
      · rw [emitJoins_cons_emb_skip r rest u hk ha]
        by_cases hm : some ap ∈ u
        · simp [List.count_append, hlp, IH u, hm]
        · have htrig : unwindTrigger ap r = false := by
            rcases h : r.array_path with _ | a
            · simp [unwindTrigger, hk, h]
            · by_cases haap : a = ap
              · exfalso
                apply ha
                refine ⟨?_, ?_⟩
                · rw [h, haap]
                  simp [truthyOpt, hap]
                · rw [h, haap]
                  intro hmem
                  exact hm hmem
              · simp [unwindTrigger, hk, h, haap]
          simp [List.count_append, hlp, IH u, hm, List.any_cons, htrig]

theorem mem_addUnique (u : List String) (x q : String) :
    q ∈ addUnique u x ↔ q ∈ u ∨ q = x := by
  by_cases hx : x ∈ u
  · simp only [addUnique, hx, if_true]
    constructor
    · exact Or.inl
    · rintro (h | h)
      · exact h
      · subst h; exact hx
  · simp [addUnique, hx, List.mem_append]

theorem mem_foldl_addUnique (l : List String) (u : List String) (q : String) :
    q ∈ l.foldl addUnique u ↔ q ∈ u ∨ q ∈ l := by
  induction l generalizing u with
  | nil => simp
  | cons x rest ih =>
    simp only [List.foldl_cons]
    rw [ih, mem_addUnique]
    simp [List.mem_cons]
    tauto

theorem mem_extract_fold (q : String) (items : List PathItem) (u : List String) :
    q ∈ items.foldl
        (fun used it =>
          match itemPath it with
          | none => used
          | some p => (dotAncestors p).foldl addUnique used) u
      ↔ q ∈ u ∨ ∃ it ∈ items, ∃ p, itemPath it = some p ∧ q ∈ dotAncestors p := by
  induction items generalizing u with
  | nil => simp
  | cons it rest ih =>
    simp only [List.foldl_cons]
    cases hip : itemPath it with
    | none =>
      rw [ih]
      simp [List.mem_cons, hip]
    | some p =>
      rw [ih, mem_foldl_addUnique]
      constructor
      · rintro ((h | h) | h)
        · exact Or.inl h
        · exact Or.inr ⟨it, List.mem_cons_self it rest, p, hip, h⟩
        · obtain ⟨x, hx, p', hp', hq⟩ := h
          exact Or.inr ⟨x, List.mem_cons_of_mem it hx, p', hp', hq⟩
      · rintro (h | h)
        · exact Or.inl (Or.inl h)
        · obtain ⟨x, hx, p', hp', hq⟩ := h
          rcases List.mem_cons.mp hx with hx | hx
          · subst hx
            rw [hip] at hp'
            injection hp' with hp'
            subst hp'
            exact Or.inl (Or.inr hq)
          · exact Or.inr ⟨x, hx, p', hp', hq⟩

theorem mem_extract (intent : IntentD) (q : String) :
    q ∈ extract_potential_paths intent ↔
      ∃ it ∈ pathItemsOf intent, ∃ p, itemPath it = some p ∧ q ∈ dotAncestors p := by
  unfold extract_potential_paths
  rw [mem_extract_fold]
  simp

theorem dedupFilter_required (req : List String) (l : List JoinRecipe) :
    ∀ seen, ∀ r ∈ dedupFilter req l seen,
      truthyOpt (path_to_check r) = true → pyStr (path_to_check r) ∈ req := by
  induction l with
  | nil =>
    intro seen r hr
    simp [dedupFilter] at hr
  | cons x rest ih =>
    intro seen r hr ht
    by_cases hc : truthyOpt (path_to_check x) = true ∧ pyStr (path_to_check x) ∉ req
    · rw [dedupFilter, if_pos hc] at hr
      exact ih seen r hr ht
    · rw [dedupFilter, if_neg hc] at hr
      by_cases hk : dedupKey x ∈ seen
      · rw [if_pos hk] at hr
        exact ih seen r hr ht
      · rw [if_neg hk] at hr
        rcases List.mem_cons.mp hr with hr | hr
        · subst hr
          by_cases hm : pyStr (path_to_check r) ∈ req
          · exact hm
          · exact absurd ⟨ht, hm⟩ hc
        · exact ih _ r hr ht

theorem dedupFilter_congr (a b : List String) (hab : ∀ x, x ∈ a ↔ x ∈ b)
    (l : List JoinRecipe) :
    ∀ seen, dedupFilter a l seen = dedupFilter b l seen := by
  induction l with
  | nil =>
    intro seen
    simp [dedupFilter]
  | cons x rest ih =>
    intro seen
    by_cases hc : truthyOpt (path_to_check x) = true ∧ pyStr (path_to_check x) ∉ a
    · have hc' : truthyOpt (path_to_check x) = true ∧ pyStr (path_to_check x) ∉ b :=
        ⟨hc.1, fun hm => hc.2 ((hab _).mpr hm)⟩
      rw [dedupFilter, dedupFilter, if_pos hc, if_pos hc', ih]
    · have hc' : ¬ (truthyOpt (path_to_check x) = true ∧ pyStr (path_to_check x) ∉ b) :=
        fun hx => hc ⟨hx.1, fun hm => hx.2 ((hab _).mp hm)⟩
      rw [dedupFilter, dedupFilter, if_neg hc, if_neg hc']
      by_cases hk : dedupKey x ∈ seen
      · rw [if_pos hk, if_pos hk, ih]
      · rw [if_neg hk, if_neg hk, ih]

theorem fetch_ok_eq (root : String) (req : List String) (g : GraphData)
    (jrs : List JoinRecipe) (h : fetch_join_recipes root req g = Except.ok jrs) :
    ∃ resolved, resolveAll root (g.collectionEdges.map mkCollectionRecipe) = Except.ok resolved
      ∧ jrs = dedupFilter req (allRecipes root g resolved) [] := by
  unfold fetch_join_recipes at h
  match hr : resolveAll root (g.collectionEdges.map mkCollectionRecipe) with
  | Except.error e => rw [hr] at h; simp at h
  | Except.ok resolved =>
    rw [hr] at h
    simp at h
    exact ⟨resolved, rfl, h.symm⟩

theorem fetch_congr (root : String) (a b : List String) (g : GraphData)
    (hab : ∀ x, x ∈ a ↔ x ∈ b) :
    fetch_join_recipes root a g = fetch_join_recipes root b g := by
  unfold fetch_join_recipes
  simp only [dedupFilter_congr a b hab]

theorem findIdxQ_lt_length {α : Type} (p : α → Bool) (l : List α) (i : Nat)
    (h : l.findIdx? p = some i) : i < l.length := by
  induction l generalizing i with
  | nil => simp [List.findIdx?] at h
  | cons x xs ih =>
    rw [List.findIdx?_cons] at h
    by_cases hp : p x
    · simp [hp] at h
      simp [List.length_cons, ← h]
    · simp [hp] at h
      obtain ⟨j, hj, hij⟩ := h
      have := ih j hj
      simp [List.length_cons, ← hij]
      omega

theorem resolveStep_length (root : String) (fuel : Nat) :
    ∀ (rs : List JoinRecipe) (i : Nat) (rs' : List JoinRecipe),
      resolveStep root fuel rs i = some rs' → rs'.length = rs.length := by
  induction fuel with
  | zero =>
    intro rs i rs' h
    simp [resolveStep] at h
  | succ fuel ih =>
    intro rs i rs' h
    rw [resolveStep] at h
    split at h
    · cases h; rfl
    · split at h
      · cases h; rfl
      · split at h
        · cases h
          simp [List.length_set]
        · split at h
          · split at h
            · cases h
            · rename_i rs₂ hrec
              split at h
              · cases h
                rw [List.length_set]
                exact ih _ _ _ hrec
              · cases h
                exact ih _ _ _ hrec
          · cases h
            simp [List.length_set]

theorem resolveStep_preserves (root : String) (fuel : Nat) :
    ∀ (rs : List JoinRecipe) (i : Nat) (rs' : List JoinRecipe),
      resolveStep root fuel rs i = some rs' →
      ∀ k : Nat, (∀ jr : JoinRecipe, rs[k]? = some jr → jr.target_path.isSome = true) →
        (∀ jr : JoinRecipe, rs'[k]? = some jr → jr.target_path.isSome = true) := by
  induction fuel with
  | zero =>
    intro rs i rs' h
    simp [resolveStep] at h
  | succ fuel ih =>
    intro rs i rs' h k hk
    rw [resolveStep] at h
    split at h
    · cases h; exact hk
    · rename_i jr0 hgi
      split at h
      · cases h; exact hk
      · split at h
        · cases h
          intro jr hjr
          by_cases hik : i = k
          · subst hik
            have hlt : i < rs.length := by
              by_contra hge
              rw [List.getElem?_eq_none (Nat.le_of_not_lt hge)] at hgi
              cases hgi
            rw [List.getElem?_set_eq_of_lt _ hlt] at hjr
            injection hjr with hjr
            rw [← hjr]
            simp
          · rw [List.getElem?_set_ne hik] at hjr
            exact hk jr hjr
        · split at h
          · split at h
            · cases h
            · rename_i rs₂ hrec
              split at h
              · rename_i parent jri hpar hjri
                cases h
                intro jr hjr
                by_cases hik : i = k
                · subst hik
                  have hlt : i < rs₂.length := by
                    by_contra hge
                    rw [List.getElem?_eq_none (Nat.le_of_not_lt hge)] at hjri
                    cases hjri
                  rw [List.getElem?_set_eq_of_lt _ hlt] at hjr
                  injection hjr with hjr
                  rw [← hjr]
                  simp
                · rw [List.getElem?_set_ne hik] at hjr
                  exact ih rs _ rs₂ hrec k hk jr hjr
              · cases h
                exact ih rs _ _ hrec k hk
          · cases h
            intro jr hjr
            by_cases hik : i = k
            · subst hik
              have hlt : i < rs.length := by
                by_contra hge
                rw [List.getElem?_eq_none (Nat.le_of_not_lt hge)] at hgi
                cases hgi
              rw [List.getElem?_set_eq_of_lt _ hlt] at hjr
              injection hjr with hjr
              rw [← hjr]
              simp
            · rw [List.getElem?_set_ne hik] at hjr
              exact hk jr hjr

theorem resolveStep_sets (root : String) (fuel : Nat) :
    ∀ (rs : List JoinRecipe) (i : Nat) (rs' : List JoinRecipe),
      resolveStep root fuel rs i = some rs' → i < rs.length →
      ∀ jr : JoinRecipe, rs'[i]? = some jr → jr.target_path.isSome = true := by
  induction fuel with
  | zero =>
    intro rs i rs' h
    simp [resolveStep] at h
  | succ fuel ih =>
    intro rs i rs' h hi jr hjr
    rw [resolveStep] at h
    split at h
    · rename_i hgi
      rw [List.getElem?_eq_getElem hi] at hgi
      cases hgi
    · rename_i jr0 hgi
      split at h
      · rename_i htr
        cases h
        rw [hgi] at hjr
        injection hjr with hjr
        subst hjr
        cases hop : jr0.target_path with
        | none =>
          rw [hop] at htr
          simp [truthyOpt] at htr
        | some s => simp [hop]
      · split at h
        · cases h
          rw [List.getElem?_set_eq_of_lt _ hi] at hjr
          injection hjr with hjr
          rw [← hjr]
          simp
        · split at h
          · rename_i j hfind
            split at h
            · cases h
            · rename_i rs₂ hrec
              have hlen : rs₂.length = rs.length := resolveStep_length root fuel rs _ rs₂ hrec
              split at h
              · rename_i parent jri hpar hjri
                cases h
                rw [List.getElem?_set_eq_of_lt _ (by rw [hlen]; exact hi)] at hjr
                injection hjr with hjr
                rw [← hjr]
                simp
              · rename_i hfall
                cases h
                exfalso
                have hju : j < rs'.length := by
                  rw [hlen]
                  exact findIdxQ_lt_length _ _ _ hfind
                have hiu : i < rs'.length := by
                  rw [hlen]
                  exact hi
                exact hfall _ _ (List.getElem?_eq_getElem hju) (List.getElem?_eq_getElem hiu)
          · cases h
            rw [List.getElem?_set_eq_of_lt _ hi] at hjr
            injection hjr with hjr
            rw [← hjr]
            simp

theorem resolveFold_target (root : String) :
    ∀ (idxs : List Nat) (rs out : List JoinRecipe),
      (idxs.foldlM
        (fun rs i =>
          match resolveStep root (rs.length + 1) rs i with
          | some rs' => Except.ok rs'
          | none => Except.error "RecursionError: resolve_paths") rs) = Except.ok out →
      (∀ k : Nat, k < rs.length → k ∈ idxs ∨
        (∀ jr : JoinRecipe, rs[k]? = some jr → jr.target_path.isSome = true)) →
      out.length = rs.length ∧
        (∀ k : Nat, ∀ jr : JoinRecipe, out[k]? = some jr → jr.target_path.isSome = true) := by
  intro idxs
  induction idxs with
  | nil =>
    intro rs out h hinv
    simp only [List.foldlM] at h
    have h2 : rs = out := by simpa [pure, Except.pure] using h
    subst h2
    refine ⟨rfl, ?_⟩
    intro k jr hjr
    by_cases hk : k < rs.length
    · rcases hinv k hk with hk2 | hk2
      · simp at hk2
      · exact hk2 jr hjr
    · rw [List.getElem?_eq_none (Nat.le_of_not_lt hk)] at hjr
      cases hjr
  | cons i rest ih =>
    intro rs out h hinv
    rw [List.foldlM_cons] at h
    cases hstep : resolveStep root (rs.length + 1) rs i with
    | none =>
      rw [hstep] at h
      simp [Bind.bind, Except.bind] at h
    | some rs₁ =>
      rw [hstep] at h
      simp only [Bind.bind, Except.bind] at h
      have hlen : rs₁.length = rs.length := resolveStep_length root _ rs i rs₁ hstep
      have hinv1 : ∀ k : Nat, k < rs₁.length → k ∈ rest ∨
          (∀ jr : JoinRecipe, rs₁[k]? = some jr → jr.target_path.isSome = true) := by
        intro k hk
        by_cases hkrest : k ∈ rest
        · exact Or.inl hkrest
        · right
          rcases hinv k (by rw [← hlen]; exact hk) with hk2 | hk2
          · rcases List.mem_cons.mp hk2 with hk3 | hk3
            · subst hk3
              exact resolveStep_sets root _ rs k rs₁ hstep (by rw [← hlen]; exact hk)
            · exact absurd hk3 hkrest
          · exact resolveStep_preserves root _ rs i rs₁ hstep k hk2
      obtain ⟨hl2, hall⟩ := ih rs₁ out h hinv1
      exact ⟨by rw [hl2, hlen], hall⟩

theorem resolveAll_target (root : String) (recipes resolved : List JoinRecipe)
    (h : resolveAll root recipes = Except.ok resolved) :
    ∀ r ∈ resolved, r.target_path.isSome = true := by
  unfold resolveAll at h
  have := resolveFold_target root (List.range recipes.length) recipes resolved h
    (fun k hk => Or.inl (List.mem_range.mpr hk))
  intro r hr
  obtain ⟨n, hn⟩ := List.mem_iff_getElem?.mp hr
  exact this.2 n r hn

theorem mem_embFold (g : GraphData) (col : String) :
    ∀ (recs : List EmbeddedRecord) (acc : List JoinRecipe) (r : JoinRecipe),
      r ∈ recs.foldl
        (fun acc2 rec =>
          let parent := acc2.find?
            (fun r => r.dst_collection == some col && r.kind == "collection")
          let fullArrayPath :=
            match parent with
            | some p => pyStr p.target_path ++ "." ++ rec.array_path
            | none => rec.array_path
          acc2 ++ [{ kind := "embedded"
                     src_collection := col
                     «alias» := rec.«alias»
                     dst_collection := some rec.dst_collection
                     local_field := some rec.local_field
                     foreign_field := some rec.foreign_field
                     array_path := some fullArrayPath }])
        acc →
      r ∈ acc ∨ r.kind = "embedded" := by
  intro recs
  induction recs with
  | nil =>
    intro acc r h
    simp at h
    exact Or.inl h
  | cons rec rest ih =>
    intro acc r h
    rw [List.foldl_cons] at h
    rcases ih _ r h with h2 | h2
    · rcases List.mem_append.mp h2 with h3 | h3
      · exact Or.inl h3
      · simp at h3
        right
        rw [h3]
    · exact Or.inr h2

theorem mem_colsFold (g : GraphData) :
    ∀ (cols : List String) (acc : List JoinRecipe) (r : JoinRecipe),
      r ∈ cols.foldl
        (fun acc col =>
          (g.embeddedOf col).foldl
            (fun acc2 rec =>
              let parent := acc2.find?
                (fun r => r.dst_collection == some col && r.kind == "collection")
              let fullArrayPath :=
                match parent with
                | some p => pyStr p.target_path ++ "." ++ rec.array_path
                | none => rec.array_path
              acc2 ++ [{ kind := "embedded"
                         src_collection := col
                         «alias» := rec.«alias»
                         dst_collection := some rec.dst_collection
                         local_field := some rec.local_field
                         foreign_field := some rec.foreign_field
                         array_path := some fullArrayPath }])
            acc)
        acc →
      r ∈ acc ∨ r.kind = "embedded" := by
  intro cols
  induction cols with
  | nil =>
    intro acc r h
    simp at h
    exact Or.inl h
  | cons col rest ih =>
    intro acc r h
    rw [List.foldl_cons] at h
    rcases ih _ r h with h2 | h2
    · exact mem_embFold g col _ _ r h2
    · exact Or.inr h2

theorem mem_allRecipes (root : String) (g : GraphData) (resolved : List JoinRecipe)
    (r : JoinRecipe) (h : r ∈ allRecipes root g resolved) :
    r ∈ resolved ∨ r.kind = "embedded" := by
  unfold allRecipes at h
  rcases List.mem_append.mp h with h | h
  · exact mem_colsFold g _ resolved r h
  · simp at h
    obtain ⟨ap, hap, hr⟩ := h
    right
    rw [← hr]

theorem dedupFilter_subset (req : List String) (l : List JoinRecipe) :
    ∀ (seen : List (String × Option String)) (r : JoinRecipe),
      r ∈ dedupFilter req l seen → r ∈ l := by
  induction l with
  | nil =>
    intro seen r h
    simp [dedupFilter] at h
  | cons x rest ih =>
    intro seen r h
    by_cases hc : truthyOpt (path_to_check x) = true ∧ pyStr (path_to_check x) ∉ req
    · rw [dedupFilter, if_pos hc] at h
      exact List.mem_cons_of_mem x (ih seen r h)
    · rw [dedupFilter, if_neg hc] at h
      by_cases hk : dedupKey x ∈ seen
      · rw [if_pos hk] at h
        exact List.mem_cons_of_mem x (ih seen r h)
      · rw [if_neg hk] at h
        rcases List.mem_cons.mp h with h | h
        · rw [h]
          exact List.mem_cons_self x rest
        · exact List.mem_cons_of_mem x (ih _ r h)

theorem fetch_collection_target (root : String) (req : List String) (g : GraphData)
    (jrs : List JoinRecipe) (h : fetch_join_recipes root req g = Except.ok jrs) :
    ∀ r ∈ jrs, r.kind = "collection" → r.target_path ≠ none := by
  obtain ⟨resolved, hres, hdedup⟩ := fetch_ok_eq root req g jrs h
  intro r hr hk hn
  rw [hdedup] at hr
  have hmem := dedupFilter_subset req _ [] r hr
  rcases mem_allRecipes root g resolved r hmem with hm | hm
  · have := resolveAll_target root _ resolved hres r hm
    rw [hn] at this
    simp at this
  · rw [hk] at hm
    simp at hm

theorem compile_ok_stages (intent : IntentD) (g : GraphData) (stages : List Stage)
    (h : compile_pipeline intent g = Except.ok stages) :
    ∃ root jrs,
      intent.root = some root
      ∧ fetch_join_recipes root (extract_potential_paths intent) g = Except.ok jrs
      ∧ compile_pipeline_stages intent jrs = Except.ok stages := by
  unfold compile_pipeline compile_pipeline_core at h
  cases hr : intent.root with
  | none =>
    rw [hr] at h
    simp at h
  | some root =>
    rw [hr] at h
    simp only [] at h
    cases hf : fetch_join_recipes root (extract_potential_paths intent) g with
    | error e =>
      rw [hf] at h
      simp at h
    | ok jrs =>
      rw [hf] at h
      simp only [] at h
      exact ⟨root, jrs, rfl, hf, h⟩

theorem matchBlock_err (fs : List FilterD) (jrs : List JoinRecipe)
    (h : ∃ f ∈ fs, f.pathHint = none ∨ f.value = none) :
    isErr (matchBlock fs jrs) = true := by
  obtain ⟨f, hf, hbad⟩ := h
  have hne : fs.isEmpty = false := by
    cases fs
    · simp at hf
    · simp
  have herr := compile_match_go_err (rewrite_map jrs) fs [] ⟨f, hf, hbad⟩
  unfold matchBlock
  rw [hne]
  simp only [Bool.false_eq_true, if_false]
  cases hm : compile_match fs jrs with
  | error e => simp [isErr]
  | ok m =>
    have herr2 : isErr (compile_match fs jrs) = true := herr
    rw [hm] at herr2
    simp [isErr] at herr2

theorem compile_stages_err_of_filters (intent : IntentD) (jrs : List JoinRecipe)
    (h : ∃ f ∈ intent.filters, f.pathHint = none ∨ f.value = none) :
    isErr (compile_pipeline_stages intent jrs) = true := by
  unfold compile_pipeline_stages
  by_cases hph : ∃ f ∈ intent.filters, f.pathHint = none
  · have herr := classifyFilters_err (lookup_paths jrs) intent.filters hph
    cases hc : classifyFilters (lookup_paths jrs) intent.filters with
    | error e => simp [isErr]
    | ok pp =>
      rw [hc] at herr
      simp [isErr] at herr
  · obtain ⟨f, hf, hbad⟩ := h
    have hval : f.value = none := by
      rcases hbad with hb | hb
      · exact absurd ⟨f, hf, hb⟩ hph
      · exact hb
    cases hc : classifyFilters (lookup_paths jrs) intent.filters with
    | error e => simp [isErr]
    | ok pp =>
      obtain ⟨pre, post⟩ := pp
      obtain ⟨h1, h2, _⟩ := classifyFilters_ok _ _ _ _ hc
      by_cases hb : isPostHint (lookup_paths jrs) (pyStr f.pathHint)
      · have hfpost : f ∈ post := by
          rw [h2]
          exact List.mem_filter.mpr ⟨hf, by simp [hb]⟩
        cases hp : matchBlock pre jrs with
        | error e => simp [isErr, hp]
        | ok pb =>
          have := matchBlock_err post jrs ⟨f, hfpost, Or.inr hval⟩
          cases hq : matchBlock post jrs with
          | error e => simp [isErr, hp, hq]
          | ok qb =>
            rw [hq] at this
            simp [isErr] at this
      · have hfpre : f ∈ pre := by
          rw [h1]
          exact List.mem_filter.mpr ⟨hf, by simp [hb]⟩
        have := matchBlock_err pre jrs ⟨f, hfpre, Or.inr hval⟩
        cases hp : matchBlock pre jrs with
        | error e => simp [isErr, hp]
        | ok pb =>
          rw [hp] at this
          simp [isErr] at this

theorem mem_sortRecipes (jrs : List JoinRecipe) (r : JoinRecipe) :
    r ∈ sortRecipes jrs ↔ r ∈ jrs := by
  simp only [sortRecipes, List.mem_append, List.mem_filter]
  by_cases hk : r.kind == "collection" <;> simp [hk]

theorem sortRecipes_eq (jrs : List JoinRecipe) :
    sortRecipes jrs = collectionRecipes jrs ++ embeddedRecipes jrs := rfl

theorem getLast_append_singleton {α : Type} (l : List α) (x : α) :
    (l ++ [x]).getLast? = some x := by
  induction l with
  | nil => rfl
  | cons y ys ih =>
    rw [List.cons_append, List.getLast?_cons, ih]
    simp

theorem isPostHint_iff (lps : List String) (p : String) :
    isPostHint lps p = true ↔
      ∃ lp ∈ lps, p = lp ∨ pyStartsWith p (lp ++ ".") = true := by
  unfold isPostHint
  rw [List.any_eq_true]
  constructor
  · rintro ⟨lp, hlp, hcond⟩
    rw [Bool.or_eq_true, beq_iff_eq] at hcond
    exact ⟨lp, hlp, hcond⟩
  · rintro ⟨lp, hlp, hcond⟩
    refine ⟨lp, hlp, ?_⟩
    rw [Bool.or_eq_true, beq_iff_eq]
    exact hcond

theorem mem_lookup_paths (jrs : List JoinRecipe) (lp : String) :
    lp ∈ lookup_paths jrs ↔
      ((∃ r ∈ jrs, r.kind = "collection" ∧ r.target_path = some lp)
       ∨ (∃ r ∈ jrs, r.kind = "embedded" ∧ truthyOpt r.dst_collection = true
           ∧ (lp = r.«alias» ∨ (truthyOpt r.array_path = true
               ∧ lp = pyStr r.array_path ++ "." ++ r.«alias»)))) := by
  unfold lookup_paths
  rw [List.mem_append]
  constructor
  · rintro (h | h)
    · left
      simp only [List.mem_filterMap, List.mem_filter] at h
      obtain ⟨r, ⟨hr, hk⟩, ht⟩ := h
      exact ⟨r, hr, by simpa using hk, ht⟩
    · right
      rw [List.mem_flatten] at h
      obtain ⟨s, hs, hlp⟩ := h
      rw [List.mem_map] at hs
      obtain ⟨r, hr, hfr⟩ := hs
      rw [← hfr] at hlp
      by_cases hk : r.kind = "embedded"
      · by_cases hd : truthyOpt r.dst_collection = true
        · refine ⟨r, hr, hk, hd, ?_⟩
          by_cases harr : truthyOpt r.array_path = true
          · simp only [hk, hd, harr] at hlp
            simp at hlp
            rcases hlp with h | h
            · exact Or.inr ⟨harr, h⟩
            · exact Or.inl h
          · simp only [hk, hd] at hlp
            simp [harr] at hlp
            exact Or.inl hlp
        · simp [hk, hd] at hlp
      · simp [hk] at hlp
  · rintro (⟨r, hr, hk, ht⟩ | ⟨r, hr, hk, hd, hcase⟩)
    · left
      simp only [List.mem_filterMap, List.mem_filter]
      exact ⟨r, ⟨hr, by simp [hk]⟩, ht⟩
    · right
      rw [List.mem_flatten]
      refine ⟨_, List.mem_map.mpr ⟨r, hr, rfl⟩, ?_⟩
      rcases hcase with h | ⟨harr, h⟩
      · simp [hk, hd, h]
      · simp [hk, hd, harr, h]

/- ------------------------------------------------------------------
   Claim theorems
   ------------------------------------------------------------------ -/

/-- C10: in `compile_match`, every filter whose op lies outside
{eq, neq, gt, gte, lt, lte, in} — including the spellings `ne`, `between`,
`contains`, `starts_with`, `ends_with` that the Intent model's `Op` type
accepts — falls through to the equality fallback: the compiled condition is
the bare value, identical to op `eq`; in particular the accepted spelling
`ne` (the code only recognizes `neq`) compiles as plain equality, never as
a `$ne` condition. -/
theorem c10_op_fallback_eq :
    (∀ (op : String) (v : Value), op ∉ ["eq", "neq", "gt", "gte", "lt", "lte", "in"] →
      condOf op v = Cond.plain v ∧ condOf op v = condOf "eq" v)
    ∧ (∀ op ∈ OpLiterals, op ∉ ["eq", "gt", "gte", "lt", "lte", "in"] →
        ∀ v : Value, condOf op v = Cond.plain v)
    ∧ (∀ v : Value, condOf "ne" v = condOf "eq" v ∧ condOf "ne" v ≠ Cond.ne v)
    ∧ (∀ (p op : String) (v : Value), op ∉ ["eq", "neq", "gt", "gte", "lt", "lte", "in"] →
        compile_match [{ pathHint := some p, op := some op, value := some v }] []
          = Except.ok [(p, Cond.plain v)]) := by
  have key : ∀ (op : String) (v : Value), op ∉ ["eq", "neq", "gt", "gte", "lt", "lte", "in"] →
      condOf op v = Cond.plain v := by
    intro op v hop
    simp only [List.mem_cons, List.not_mem_nil, or_false, not_or] at hop
    obtain ⟨h1, h2, h3, h4, h5, h6, h7⟩ := hop
    simp [condOf, h1, h2, h3, h4, h5, h6, h7]
  refine ⟨?_, ?_, ?_, ?_⟩
  · intro op v hop
    exact ⟨key op v hop, by rw [key op v hop]; rfl⟩
  · intro op hop hop6 v
    simp only [OpLiterals, List.mem_cons, List.not_mem_nil, or_false] at hop
    rcases hop with h | h | h | h | h | h | h | h | h | h | h <;> subst h <;>
      first
        | rfl
        | (exfalso; simp at hop6)
  · intro v
    refine ⟨rfl, ?_⟩
    intro hcon
    rw [show condOf "ne" v = Cond.plain v from rfl] at hcon
    cases hcon
  · intro p op v hop
    have hc := key op v hop
    show compile_match_go (rewrite_map []) _ [] = _
    simp [compile_match_go, rewrite_map, applyRewrite, dictInsert, hc]

/-- C10 witness: `between` is outside the recognized op set and compiles to
the bare value, and a singleton `ne` filter compiles to plain equality. -/
theorem c10_witness :
    ("between" ∉ ["eq", "neq", "gt", "gte", "lt", "lte", "in"]
      ∧ condOf "between" (Value.prim (Prim.int 3)) = Cond.plain (Value.prim (Prim.int 3)))
    ∧ compile_match [⟨some "x", some "ne", some (Value.prim (Prim.int 3))⟩] []
        = Except.ok [("x", Cond.plain (Value.prim (Prim.int 3)))] :=
  ⟨⟨by decide, (c10_op_fallback_eq.1 "between" (Value.prim (Prim.int 3)) (by decide)).1⟩,
   c10_op_fallback_eq.2.2.2 "x" "ne" (Value.prim (Prim.int 3)) (by decide)⟩

/-- C8: when several filters handed to `compile_match` target the same
rewritten field path, the emitted match document binds that path to the
condition of the last such filter (plain `d[k] = v` overwrite, not a
conjunction), and each path occurs at most once in the document. -/
theorem c8_same_path_overwrite (fs : List FilterD) (jrs : List JoinRecipe)
    (doc : List (String × Cond))
    (h : compile_match fs jrs = Except.ok doc) :
    (∀ p : String, dictLookup doc p = lastFilterCond (rewrite_map jrs) fs p)
    ∧ (doc.map Prod.fst).Nodup := by
  constructor
  · intro p
    have hl := compile_match_go_lookup (rewrite_map jrs) fs [] doc p h
    rw [hl]
    cases lastFilterCond (rewrite_map jrs) fs p <;> simp [dictLookup]
  · exact compile_match_go_nodup (rewrite_map jrs) fs [] doc (by simp) h

/-- C8 witness: two filters on `total` (gt 1 then lt 9) leave only the
last condition in the compiled match document. -/
theorem c8_witness :
    dictLookup [("total", Cond.lt (Value.prim (Prim.int 9)))] "total"
      = lastFilterCond (rewrite_map []) c8Filters "total"
    ∧ (([("total", Cond.lt (Value.prim (Prim.int 9)))].map
        (Prod.fst (α := String) (β := Cond))).Nodup) :=
  ⟨(c8_same_path_overwrite c8Filters [] _ rfl).1 "total",
   (c8_same_path_overwrite c8Filters [] _ rfl).2⟩

/-- C7: `extract_potential_paths` returns exactly the set of all dotted
ancestors (prefixes) of every path referenced in the select entries, filter
pathHints and sort pathHints; for `a.b.c` the paths `a`, `a.b`, `a.b.c`
are all included, and entries with a missing or empty path value are
skipped without error. -/
theorem c7_extract_all_ancestors :
    (∀ (intent : IntentD) (q : String),
      q ∈ extract_potential_paths intent ↔
        ∃ it ∈ pathItemsOf intent, ∃ p, itemPath it = some p ∧ q ∈ dotAncestors p)
    ∧ dotAncestors "a.b.c" = ["a", "a.b", "a.b.c"]
    ∧ itemPath (PathItem.obj none none) = none
    ∧ itemPath (PathItem.obj (some "") none) = none
    ∧ itemPath (PathItem.str "") = none :=
  ⟨mem_extract, rfl, rfl, rfl, rfl⟩

/-- C9: compilation is deterministic — the required-path set is consulted
only through membership, so any representation of the set with the same
members (any completion or iteration order) yields the identical stage
sequence; together with the purely functional pipeline construction this
gives byte-identical output for identical query results. -/
theorem c9_deterministic (intent : IntentD) (g : GraphData) (req : List String)
    (hreq : ∀ x : String, x ∈ req ↔ x ∈ extract_potential_paths intent) :
    compile_pipeline_core intent req g = compile_pipeline intent g := by
  unfold compile_pipeline compile_pipeline_core
  cases hr : intent.root with
  | none => rfl
  | some root =>
    simp only []
    rw [fetch_congr root req (extract_potential_paths intent) g hreq]

/-- C9 witness: a permuted required-path set compiles identically. -/
theorem c9_witness :
    compile_pipeline_core c9Intent ["a.b", "a"] gEmpty = compile_pipeline c9Intent gEmpty :=
  c9_deterministic c9Intent gEmpty ["a.b", "a"] (by
    intro x
    have he : extract_potential_paths c9Intent = ["a", "a.b"] := rfl
    rw [he]
    simp [List.mem_cons]
    tauto)

/-- C5 (amended): `compile_pipeline` fails the whole call (no partial
pipeline) for an Intent missing `root`, and for a filter missing `pathHint`
or `value`; a filter missing `op`, however, is silently coerced to `eq`
rather than rejected. -/
theorem c5_reject_amended (intent : IntentD) (g : GraphData) :
    (intent.root = none → isErr (compile_pipeline intent g) = true)
    ∧ ((∃ f ∈ intent.filters, f.pathHint = none ∨ f.value = none) →
        isErr (compile_pipeline intent g) = true)
    ∧ (∀ (p : String) (v : Value) (jrs : List JoinRecipe),
        compile_match [⟨some p, none, some v⟩] jrs
          = compile_match [⟨some p, some "eq", some v⟩] jrs) := by
  refine ⟨?_, ?_, ?_⟩
  · intro hr
    unfold compile_pipeline compile_pipeline_core
    rw [hr]
    rfl
  · intro hex
    unfold compile_pipeline compile_pipeline_core
    cases hr : intent.root with
    | none => rfl
    | some root =>
      simp only []
      cases hf : fetch_join_recipes root (extract_potential_paths intent) g with
      | error e => rfl
      | ok jrs =>
        simp only []
        exact compile_stages_err_of_filters intent jrs hex
  · intro p v jrs
    rfl

/-- C5 counterexample: an Intent whose filter has no `op` key is accepted
and compiled as a plain equality, not rejected. -/
theorem c5_counterexample :
    c5Intent.filters.map (fun f => f.op) = [none]
    ∧ compile_pipeline c5Intent gEmpty
        = Except.ok [Stage.matchS [("status", Cond.plain (Value.prim (Prim.str "PENDING")))]] :=
  ⟨rfl, rfl⟩

/-- C5 witness: a missing root and a filter missing `pathHint` each abort
the whole compilation. -/
theorem c5_witness :
    isErr (compile_pipeline { root := none } gEmpty) = true
    ∧ isErr (compile_pipeline
        { root := some "orders"
          filters := [⟨none, none, some (Value.prim (Prim.int 1))⟩] } gEmpty) = true :=
  ⟨(c5_reject_amended { root := none } gEmpty).1 rfl,
   (c5_reject_amended
      { root := some "orders"
        filters := [⟨none, none, some (Value.prim (Prim.int 1))⟩] } gEmpty).2.1
     ⟨⟨none, none, some (Value.prim (Prim.int 1))⟩, List.mem_cons_self _ _, Or.inl rfl⟩⟩

/-- C6: when `aggregation = count`, the compiled pipeline is non-empty and
its last stage is the count stage with no stage after it; when
`aggregation` is absent no count stage is emitted anywhere. -/
theorem c6_count_terminal (intent : IntentD) (g : GraphData) (stages : List Stage)
    (h : compile_pipeline intent g = Except.ok stages) :
    (intent.aggregation = some "count" →
      stages ≠ [] ∧ stages.getLast? = some (Stage.count "total"))
    ∧ (intent.aggregation = none → ∀ fld : String, Stage.count fld ∉ stages) := by
  obtain ⟨root, jrs, hroot, hfetch, hstages⟩ := compile_ok_stages intent g stages h
  obtain ⟨pre, post, pb, qb, hc, hp, hq, heq⟩ := compile_stages_eq intent jrs stages hstages
  constructor
  · intro hagg
    have haggb : aggBlock intent = [Stage.count "total"] := by simp [aggBlock, hagg]
    rw [heq, haggb]
    have hassoc : pb ++ (emitJoins (sortRecipes jrs) []).1 ++ qb ++ [Stage.count "total"]
        = (pb ++ (emitJoins (sortRecipes jrs) []).1 ++ qb) ++ [Stage.count "total"] := by
      simp [List.append_assoc]
    rw [hassoc, getLast_append_singleton]
    exact ⟨by simp, rfl⟩
  · intro hagg fld hmem
    have haggb : aggBlock intent = [] := by simp [aggBlock, hagg]
    rw [heq, haggb] at hmem
    simp only [List.append_nil, List.mem_append] at hmem
    rcases hmem with (hm | hm) | hm
    · rcases matchBlock_shape pre jrs pb hp with hpb | ⟨m, hpb, _⟩
      · rw [hpb] at hm
        simp at hm
      · rw [hpb] at hm
        simp at hm
    · rcases emitJoins_shape (sortRecipes jrs) [] _ hm with ⟨a, b, c, d, hs⟩ | ⟨pth, hs⟩ <;>
        cases hs
    · rcases matchBlock_shape post jrs qb hq with hqb | ⟨m, hqb, _⟩
      · rw [hqb] at hm
        simp at hm
      · rw [hqb] at hm
        simp at hm

/-- C6 witness: a count Intent compiles to a match stage followed by the
terminal count stage, and the same Intent with no aggregation emits no
count stage. -/
theorem c6_witness :
    ([Stage.matchS [("status", Cond.plain (Value.prim (Prim.str "PENDING")))],
      Stage.count "total"] : List Stage) ≠ []
    ∧ ([Stage.matchS [("status", Cond.plain (Value.prim (Prim.str "PENDING")))],
        Stage.count "total"] : List Stage).getLast? = some (Stage.count "total")
    ∧ ∀ fld : String, Stage.count fld
        ∉ [Stage.matchS [("status", Cond.plain (Value.prim (Prim.str "PENDING")))]] :=
  ⟨((c6_count_terminal c6Intent gEmpty _ rfl).1 rfl).1,
   ((c6_count_terminal c6Intent gEmpty _ rfl).1 rfl).2,
   (c6_count_terminal { c6Intent with aggregation := none } gEmpty _ rfl).2 rfl⟩

/-- C4 (amended): `fetch_join_recipes` discards every recipe whose
effective path (`target_path` for collection kind; `array_path or alias`
for embedded kind) is truthy (non-empty, non-missing) and not in the
required-path set — so every surviving recipe with a truthy effective path
has it in the set; a recipe whose effective path is empty or missing
escapes the discard test (Python truthiness) and is retained
unconditionally. -/
theorem c4_minimality_amended (root : String) (req : List String) (g : GraphData)
    (jrs : List JoinRecipe) (h : fetch_join_recipes root req g = Except.ok jrs) :
    ∀ r ∈ jrs, truthyOpt (path_to_check r) = true → pyStr (path_to_check r) ∈ req := by
  obtain ⟨resolved, hres, hdedup⟩ := fetch_ok_eq root req g jrs h
  intro r hr
  rw [hdedup] at hr
  exact dedupFilter_required req _ [] r hr

/-- C4 counterexample: a collection recipe whose alias is the empty string
resolves to the empty effective path, which is not in the required-path
set, yet the recipe survives the filter and produces a lookup and an unwind
stage in the compiled pipeline. -/
theorem c4_counterexample :
    extract_potential_paths c4Intent = ["name"]
    ∧ fetch_join_recipes "orders" ["name"] c4Graph
        = Except.ok [⟨"collection", "orders", "", some "x", some "xId", some "_id",
            some "", some "xId", none⟩]
    ∧ path_to_check ⟨"collection", "orders", "", some "x", some "xId", some "_id",
        some "", some "xId", none⟩ = some ""
    ∧ "" ∉ ["name"]
    ∧ compile_pipeline c4Intent c4Graph
        = Except.ok [Stage.lookup (some "x") (some "xId") (some "_id") (some ""),
                     Stage.unwind "$"] :=
  ⟨rfl, rfl, rfl, by decide, rfl⟩

/-- C4 witness: in the two-hop chain fetched from the child-first graph,
the surviving recipe for `order.customer` has its truthy effective path in
the required set. -/
theorem c4_witness :
    pyStr (path_to_check ⟨"collection", "orders", "customer", some "customers",
        some "customerId", some "_id", some "order.customer", some "order.customerId", none⟩)
      ∈ ["order", "order.customer", "order.customer.name"] :=
  c4_minimality_amended "payments" ["order", "order.customer", "order.customer.name"]
    c2Graph _ rfl _ (List.mem_cons_self _ _) rfl

/-- C3 (amended): a filter is classified post-lookup exactly when its
pathHint equals, or extends by a dot, one of the lookup paths, where the
lookup paths are the collection recipes' target paths together with — only
for embedded recipes with a truthy `dst_collection` — the recipe's alias
and (for a truthy arrayPath) `arrayPath.alias`; embedded recipes without a
`dst_collection` contribute no lookup path, so filters on their arrays are
classified pre-lookup.  The pre-lookup match stage precedes every join
stage and the post-lookup match stage follows every lookup/unwind stage,
with only the count stage after it. -/
theorem c3_classification_amended :
    (∀ (jrs : List JoinRecipe) (lp : String),
      lp ∈ lookup_paths jrs ↔
        ((∃ r ∈ jrs, r.kind = "collection" ∧ r.target_path = some lp)
         ∨ (∃ r ∈ jrs, r.kind = "embedded" ∧ truthyOpt r.dst_collection = true
             ∧ (lp = r.«alias» ∨ (truthyOpt r.array_path = true
                 ∧ lp = pyStr r.array_path ++ "." ++ r.«alias»)))))
    ∧ (∀ (lps : List String) (p : String),
        isPostHint lps p = true ↔ ∃ lp ∈ lps, p = lp ∨ pyStartsWith p (lp ++ ".") = true)
    ∧ (∀ (intent : IntentD) (jrs : List JoinRecipe) (stages : List Stage),
        compile_pipeline_stages intent jrs = Except.ok stages →
        ∃ pb qb,
          stages = pb ++ (emitJoins (sortRecipes jrs) []).1 ++ qb ++ aggBlock intent
          ∧ matchBlock (intent.filters.filter
              (fun f => !(isPostHint (lookup_paths jrs) (pyStr f.pathHint)))) jrs
              = Except.ok pb
          ∧ matchBlock (intent.filters.filter
              (fun f => isPostHint (lookup_paths jrs) (pyStr f.pathHint))) jrs
              = Except.ok qb
          ∧ (pb = [] ∨ ∃ m, pb = [Stage.matchS m])
          ∧ (qb = [] ∨ ∃ m, qb = [Stage.matchS m])
          ∧ (∀ s ∈ (emitJoins (sortRecipes jrs) []).1,
              (∃ a b c d, s = Stage.lookup a b c d) ∨ ∃ pth, s = Stage.unwind pth)
          ∧ (∀ s ∈ aggBlock intent, s = Stage.count "total")) := by
  refine ⟨mem_lookup_paths, isPostHint_iff, ?_⟩
  intro intent jrs stages h
  obtain ⟨pre, post, pb, qb, hc, hp, hq, heq⟩ := compile_stages_eq intent jrs stages h
  obtain ⟨h1, h2, _⟩ := classifyFilters_ok _ _ _ _ hc
  refine ⟨pb, qb, heq, ?_, ?_, ?_, ?_, ?_, ?_⟩
  · rw [← h1]; exact hp
  · rw [← h2]; exact hq
  · rcases matchBlock_shape pre jrs pb hp with hpb | ⟨m, hpb, _⟩
    · exact Or.inl hpb
    · exact Or.inr ⟨m, hpb⟩
  · rcases matchBlock_shape post jrs qb hq with hqb | ⟨m, hqb, _⟩
    · exact Or.inl hqb
    · exact Or.inr ⟨m, hqb⟩
  · exact emitJoins_shape (sortRecipes jrs) []
  · intro s hs
    by_cases hagg : intent.aggregation == some "count"
    · simp [aggBlock, hagg] at hs
      exact hs
    · simp [aggBlock, hagg] at hs

/-- C3 counterexample: for a root-level embedded array `items` with no
outgoing reference, the fetched recipe's alias is `items` and the filter
path `items.qty` extends that alias by a dot, so the claim classifies it
post-lookup; the compiler instead classifies it pre-lookup and emits its
match stage before the unwind of `$items`. -/
theorem c3_counterexample :
    fetch_join_recipes "orders" (extract_potential_paths c3Intent) c3Graph
      = Except.ok [⟨"embedded", "orders", "items", none, none, none, none, none, some "items"⟩]
    ∧ pyStartsWith "items.qty" ("items" ++ ".") = true
    ∧ compile_pipeline c3Intent c3Graph
        = Except.ok [Stage.matchS [("items.qty", Cond.plain (Value.prim (Prim.int 5)))],
                     Stage.unwind "$items"] :=
  ⟨rfl, rfl, rfl⟩

/-- C3 witness: a pipeline with one pre-lookup filter, two embedded joins
and a count stage decomposes as pre-match, join block, post block, count
block. -/
theorem c3_witness :
    ∃ pb qb,
      [Stage.matchS [("status", Cond.plain (Value.prim (Prim.str "PENDING")))],
       Stage.unwind "$deliveries",
       Stage.lookup (some "drivers") (some "deliveries.driverId") (some "_id") (some "driver"),
       Stage.unwind "$driver",
       Stage.lookup (some "vehicles") (some "deliveries.vehicleId") (some "_id") (some "vehicle"),
       Stage.unwind "$vehicle",
       Stage.count "total"]
        = pb ++ (emitJoins (sortRecipes c1GoodJrs) []).1 ++ qb ++ aggBlock c6Intent
      ∧ matchBlock (c6Intent.filters.filter
          (fun f => !(isPostHint (lookup_paths c1GoodJrs) (pyStr f.pathHint)))) c1GoodJrs
          = Except.ok pb
      ∧ matchBlock (c6Intent.filters.filter
          (fun f => isPostHint (lookup_paths c1GoodJrs) (pyStr f.pathHint))) c1GoodJrs
          = Except.ok qb
      ∧ (pb = [] ∨ ∃ m, pb = [Stage.matchS m])
      ∧ (qb = [] ∨ ∃ m, qb = [Stage.matchS m])
      ∧ (∀ s ∈ (emitJoins (sortRecipes c1GoodJrs) []).1,
          (∃ a b c d, s = Stage.lookup a b c d) ∨ ∃ pth, s = Stage.unwind pth)
      ∧ (∀ s ∈ aggBlock c6Intent, s = Stage.count "total") :=
  c3_classification_amended.2.2 c6Intent c1GoodJrs _ rfl

/-- C2 (amended): the stable sort partitions on kind only, so all
collection-kind join stages are emitted before all embedded-kind join
stages; the collection lookups appear in fetched recipe order (first
occurrence per target path), with no re-sorting by hop depth — the
shallower-before-deeper property therefore holds exactly when the fetched
collection recipes are already listed parent before child, and fails for
child-first record order. -/
theorem c2_join_order_amended (intent : IntentD) (jrs : List JoinRecipe)
    (stages : List Stage)
    (h : compile_pipeline_stages intent jrs = Except.ok stages) :
    ∃ pb qb,
      (pb = [] ∨ ∃ m, pb = [Stage.matchS m])
      ∧ (qb = [] ∨ ∃ m, qb = [Stage.matchS m])
      ∧ stages = pb ++ (emitJoins (collectionRecipes jrs) []).1
          ++ (emitJoins (embeddedRecipes jrs) (emitJoins (collectionRecipes jrs) []).2).1
          ++ qb ++ aggBlock intent
      ∧ ((emitJoins (collectionRecipes jrs) []).1).filterMap lookupAs
          = dedupSeen [] ((collectionRecipes jrs).map (fun r => r.target_path))
      ∧ (List.Pairwise (fun a b => ¬ dotUnderO b a)
            ((collectionRecipes jrs).map (fun r => r.target_path)) →
         List.Pairwise (fun a b => ¬ dotUnderO b a)
            (((emitJoins (collectionRecipes jrs) []).1).filterMap lookupAs)) := by
  obtain ⟨pre, post, pb, qb, hc, hp, hq, heq⟩ := compile_stages_eq intent jrs stages h
  have hsplit := emitJoins_append (collectionRecipes jrs) (embeddedRecipes jrs) []
  have hcoll : ∀ r ∈ collectionRecipes jrs, r.kind = "collection" := by
    intro r hr
    have := List.mem_filter.mp hr
    simpa using this.2
  have has := emitJoins_collection_as (collectionRecipes jrs) [] hcoll
  refine ⟨pb, qb, ?_, ?_, ?_, has, ?_⟩
  · rcases matchBlock_shape pre jrs pb hp with hpb | ⟨m, hpb, _⟩
    · exact Or.inl hpb
    · exact Or.inr ⟨m, hpb⟩
  · rcases matchBlock_shape post jrs qb hq with hqb | ⟨m, hqb, _⟩
    · exact Or.inl hqb
    · exact Or.inr ⟨m, hqb⟩
  · rw [heq, sortRecipes_eq, hsplit]
    simp [List.append_assoc]
  · intro hpw
    rw [has]
    exact hpw.sublist (dedupSeen_sublist [] _)

/-- C2 counterexample: with the child edge listed before the parent edge,
the compiled pipeline emits the lookup for the deeper target path
`order.customer` before the lookup for its strict dotted ancestor `order`. -/
theorem c2_counterexample :
    compile_pipeline c2Intent c2Graph
      = Except.ok [Stage.lookup (some "customers") (some "order.customerId") (some "_id")
                     (some "order.customer"),
                   Stage.unwind "$order.customer",
                   Stage.lookup (some "orders") (some "orderId") (some "_id") (some "order"),
                   Stage.unwind "$order"]
    ∧ dotUnder "order" "order.customer" :=
  ⟨rfl, by decide⟩

/-- C2 witness: with parent-first recipes the emitted collection lookups
keep dependency order. -/
theorem c2_witness :
    ∃ pb qb,
      (pb = [] ∨ ∃ m, pb = [Stage.matchS m])
      ∧ (qb = [] ∨ ∃ m, qb = [Stage.matchS m])
      ∧ [Stage.lookup (some "orders") (some "orderId") (some "_id") (some "order"),
         Stage.unwind "$order",
         Stage.lookup (some "customers") (some "order.customerId") (some "_id")
           (some "order.customer"),
         Stage.unwind "$order.customer"]
          = pb ++ (emitJoins (collectionRecipes c2GoodJrs) []).1
          ++ (emitJoins (embeddedRecipes c2GoodJrs)
                (emitJoins (collectionRecipes c2GoodJrs) []).2).1
          ++ qb ++ aggBlock {}
      ∧ ((emitJoins (collectionRecipes c2GoodJrs) []).1).filterMap lookupAs
          = dedupSeen [] ((collectionRecipes c2GoodJrs).map (fun r => r.target_path))
      ∧ (List.Pairwise (fun a b => ¬ dotUnderO b a)
            ((collectionRecipes c2GoodJrs).map (fun r => r.target_path)) →
         List.Pairwise (fun a b => ¬ dotUnderO b a)
            (((emitJoins (collectionRecipes c2GoodJrs) []).1).filterMap lookupAs)) :=
  c2_join_order_amended {} c2GoodJrs _ rfl

/-- C1 (amended): when the fetched recipe list contains embedded recipes
sharing one (non-empty) arrayPath, the compiled pipeline contains exactly
one unwind stage for that arrayPath — provided no embedded recipe with a
`dst_collection` has its alias equal to that arrayPath; the alias unwind
after an embedded lookup is emitted unguarded, so an alias colliding with
the arrayPath produces a second unwind of the same path (see the
counterexample). -/
theorem c1_no_double_unwind_amended (intent : IntentD) (g : GraphData)
    (root : String) (jrs : List JoinRecipe) (stages : List Stage) (ap : String)
    (hroot : intent.root = some root)
    (hfetch : fetch_join_recipes root (extract_potential_paths intent) g = Except.ok jrs)
    (hcomp : compile_pipeline intent g = Except.ok stages)
    (hap : ap ≠ "")
    (hshare : ∃ r ∈ jrs, r.kind = "embedded" ∧ r.array_path = some ap)
    (halias : ∀ r ∈ jrs, r.kind ≠ "collection" → truthyOpt r.dst_collection = true →
        r.«alias» ≠ ap) :
    stages.count (Stage.unwind ("$" ++ ap)) = 1 := by
  obtain ⟨root2, jrs2, hroot2, hfetch2, hstages⟩ := compile_ok_stages intent g stages hcomp
  rw [hroot] at hroot2
  injection hroot2 with hroot2
  subst hroot2
  rw [hfetch] at hfetch2
  injection hfetch2 with hfetch2
  subst hfetch2
  obtain ⟨pre, post, pb, qb, hc, hp, hq, heq⟩ := compile_stages_eq intent jrs stages hstages
  have hW : ∀ r ∈ sortRecipes jrs, r.kind = "collection" → r.target_path ≠ none := by
    intro r hr hk
    exact fetch_collection_target root _ g jrs hfetch r ((mem_sortRecipes jrs r).mp hr) hk
  have hA : ∀ r ∈ sortRecipes jrs, r.kind ≠ "collection" →
      truthyOpt r.dst_collection = true → r.«alias» ≠ ap := by
    intro r hr
    exact halias r ((mem_sortRecipes jrs r).mp hr)
  have hcnt := emitJoins_count_unwind ap (sortRecipes jrs) hap hW hA []
  have hany : (sortRecipes jrs).any (unwindTrigger ap) = true := by
    obtain ⟨r, hr, hk, harr⟩ := hshare
    rw [List.any_eq_true]
    refine ⟨r, (mem_sortRecipes jrs r).mpr hr, ?_⟩
    simp [unwindTrigger, hk, harr]
  rw [hany] at hcnt
  simp only [List.not_mem_nil, if_false, if_true] at hcnt
  have hpb0 : pb.count (Stage.unwind ("$" ++ ap)) = 0 := by
    rcases matchBlock_shape pre jrs pb hp with hpb | ⟨m, hpb, _⟩ <;>
      simp [hpb, List.count_cons]
  have hqb0 : qb.count (Stage.unwind ("$" ++ ap)) = 0 := by
    rcases matchBlock_shape post jrs qb hq with hqb | ⟨m, hqb, _⟩ <;>
      simp [hqb, List.count_cons]
  have hagg0 : (aggBlock intent).count (Stage.unwind ("$" ++ ap)) = 0 := by
    unfold aggBlock
    split <;> simp [List.count_cons]
  rw [heq, List.count_append, List.count_append, List.count_append,
    hpb0, hqb0, hagg0, hcnt]

/-- C1 counterexample: two embedded recipes share arrayPath `items`, and
one of them has alias `items` with a `dst_collection`; the compiled
pipeline unwinds `$items` twice — once for the shared arrayPath and once,
unguarded, for the colliding alias after its lookup. -/
theorem c1_counterexample :
    fetch_join_recipes "orders" (extract_potential_paths c1Intent) c1Graph
      = Except.ok
          [⟨"embedded", "orders", "product", some "products", some "productId", some "_id",
            none, none, some "items"⟩,
           ⟨"embedded", "orders", "items", some "products", some "productId", some "_id",
            none, none, some "items"⟩]
    ∧ compile_pipeline c1Intent c1Graph
        = Except.ok
            [Stage.unwind "$items",
             Stage.lookup (some "products") (some "items.productId") (some "_id")
               (some "product"),
             Stage.unwind "$product",
             Stage.lookup (some "products") (some "items.productId") (some "_id")
               (some "items"),
             Stage.unwind "$items"]
    ∧ ([Stage.unwind "$items",
        Stage.lookup (some "products") (some "items.productId") (some "_id")
          (some "product"),
        Stage.unwind "$product",
        Stage.lookup (some "products") (some "items.productId") (some "_id")
          (some "items"),
        Stage.unwind "$items"].count (Stage.unwind "$items")) = 2 :=
  ⟨rfl, rfl, rfl⟩

/-- C1 witness: two embedded recipes sharing arrayPath `deliveries` with
non-colliding aliases produce exactly one unwind of `$deliveries`. -/
theorem c1_witness :
    ([Stage.unwind "$deliveries",
      Stage.lookup (some "drivers") (some "deliveries.driverId") (some "_id") (some "driver"),
      Stage.unwind "$driver",
      Stage.lookup (some "vehicles") (some "deliveries.vehicleId") (some "_id") (some "vehicle"),
      Stage.unwind "$vehicle"].count (Stage.unwind "$deliveries")) = 1 :=
  c1_no_double_unwind_amended c1WitIntent c1WitGraph "orders"
    [⟨"embedded", "orders", "driver", some "drivers", some "driverId", some "_id",
      none, none, some "deliveries"⟩,
     ⟨"embedded", "orders", "vehicle", some "vehicles", some "vehicleId", some "_id",
      none, none, some "deliveries"⟩]
    _ "deliveries" rfl rfl rfl (by decide)
    ⟨_, List.mem_cons_self _ _, rfl, rfl⟩
    (by decide)
